import Mathlib

/-!
Verification development for the poker-arena repository.

The Go sources are shallowly embedded:
* Go strings that are inspected byte-by-byte (card strings such as "A♠",
  where the suit symbol occupies three UTF-8 bytes) are modelled as lists of
  bytes (`GoStr := List Nat`), because the Go code indexes and measures them
  in bytes (`len`, `s[0]`, `s[:2]`).
* Go `int` is modelled as `Int`; Go map reads return the zero value for a
  missing key, modelled with association lists and a defaulting lookup.
* Iteration over a Go map has an unspecified order; functions whose result
  depends on that order take the iteration order as an explicit parameter
  (a permutation of the key set), and deterministic wrappers fix a canonical
  first-insertion order.
-/

set_option maxRecDepth 10000

/-- A Go string viewed as its byte sequence. -/
abbrev GoStr := List Nat

/-- internal/poker/hand.go `VALUES`: card value string to numeric rank.
A missing key yields the Go zero value 0 (this happens for the card strings
of rank 10, whose first byte alone is "1"). -/
def VALUES (v : GoStr) : Int :=
  if v = [0x32] then 2
  else if v = [0x33] then 3
  else if v = [0x34] then 4
  else if v = [0x35] then 5
  else if v = [0x36] then 6
  else if v = [0x37] then 7
  else if v = [0x38] then 8
  else if v = [0x39] then 9
  else if v = [0x31, 0x30] then 10
  else if v = [0x4A] then 11
  else if v = [0x51] then 12
  else if v = [0x4B] then 13
  else if v = [0x41] then 14
  else 0

structure Card where
  value : GoStr
  suit  : GoStr
deriving DecidableEq

/-- internal/poker/hand.go `parseCard`. Go `len` is the byte length, so the
`len == 3` branch (meant for "10x") never fires on the deck's card strings,
whose suit symbols are three bytes long. Byte indexing out of range panics in
Go; the model defaults to byte 0 there (never reached on deck cards). -/
def parseCard (cs : GoStr) : Card :=
  if cs.length = 3 then
    { value := cs.take 2, suit := [cs.getD 2 0] }
  else
    { value := [cs.getD 0 0], suit := [cs.getD 1 0] }

/-- Insertion of one element into a descending-sorted `Int` list. -/
def insertDescInt (x : Int) : List Int → List Int
  | [] => [x]
  | y :: t => if y < x then x :: y :: t else y :: insertDescInt x t

/-- Descending sort of an `Int` list (models `sort.Slice` with a `>`
comparator; on integers every correct descending sort yields this list). -/
def sortDescInt (l : List Int) : List Int := l.foldr insertDescInt []

/-- Descending sort of a `Nat` list (for the multiset of value counts). -/
def insertDescNat (x : Nat) : List Nat → List Nat
  | [] => [x]
  | y :: t => if y < x then x :: y :: t else y :: insertDescNat x t

def sortDescNat (l : List Nat) : List Nat := l.foldr insertDescNat []

/-- The distinct values of a list in first-occurrence order (the key set of
the Go map `ValueCounts`; the order is only a canonical enumeration of the
keys, Go's iteration order is unspecified). -/
def firstKeys (l : List Int) : List Int :=
  l.foldl (fun acc v => if v ∈ acc then acc else acc ++ [v]) []

/-- internal/poker/hand.go `hasFlush`: do all cards carry the same parsed
suit byte. -/
def hasFlush (suits : List GoStr) : Bool :=
  match suits with
  | [] => false
  | s :: _ => suits.all (fun x => x = s)

/-- One sliding 5-window consecutiveness test: does the list start with, or
contain, five adjacent entries each exactly one below the previous. -/
def consecRun5 : List Int → Bool
  | a :: b :: c :: d :: e :: t =>
    ((a - b = 1 ∧ b - c = 1 ∧ c - d = 1 ∧ d - e = 1 : Prop) : Bool)
      || consecRun5 (b :: c :: d :: e :: t)
  | _ => false

/-- internal/poker/hand.go `hasStraight`, as a function of the hand's parsed
values. The ace is relocated to the low end only when the second-highest
distinct value is exactly 5. -/
def hasStraight (sortedValues : List Int) : Bool :=
  let values := sortDescInt sortedValues.dedup
  if values.length < 5 then false
  else
    let values :=
      if values.getD 0 0 = 14 ∧ values.getD 1 0 = 5 then values.tail ++ [1]
      else values
    consecRun5 values

structure HandScore where
  rank  : Int
  value : List Int
deriving DecidableEq

/-- First element of `ord` satisfying `p`, else 0 (a Go loop with `break`
over a map, starting from the zero value of the loop variable). -/
def firstSuchD (ord : List Int) (p : Int → Bool) : Int :=
  match ord.find? p with
  | some v => v
  | none => 0

/-- Last element of `ord` satisfying `p`, else 0 (a Go loop without `break`
that keeps overwriting the variable). -/
def lastSuchD (ord : List Int) (p : Int → Bool) : Int :=
  firstSuchD ord.reverse p

/-- internal/poker/hand.go `evaluateHand`. `sortedValues` are the parsed
values sorted descending, `suits` the parsed suits, `vc` the contents of the
`ValueCounts` map, and `ord` the order in which a `range` loop happens to
enumerate that map's keys (unspecified in Go). -/
def evaluateHand (sortedValues : List Int) (suits : List GoStr)
    (vc : List (Int × Nat)) (ord : List Int) : HandScore :=
  let countOf : Int → Nat := fun v => ((vc.lookup v).getD 0)
  let counts : List Nat := sortDescNat (vc.map Prod.snd)
  let isFlush := hasFlush suits
  let isStraight := hasStraight sortedValues
  if isFlush ∧ isStraight ∧ 5 ≤ sortedValues.length ∧
      sortedValues.getD 0 0 = 14 ∧ sortedValues.getD 4 0 = 10 then
    { rank := 10, value := sortedValues }
  else if isFlush ∧ isStraight then
    { rank := 9, value := sortedValues }
  else if counts.getD 0 0 = 4 then
    let quadValue := firstSuchD ord (fun v => countOf v = 4)
    let kicker := firstSuchD sortedValues (fun v => ¬ v = quadValue)
    { rank := 8, value := [quadValue, kicker] }
  else if counts.getD 0 0 = 3 ∧ counts.getD 1 0 = 2 then
    let tripValue := lastSuchD ord (fun v => countOf v = 3)
    let pairValue := lastSuchD ord (fun v => countOf v = 2)
    { rank := 7, value := [tripValue, pairValue] }
  else if isFlush then
    { rank := 6, value := sortedValues }
  else if isStraight then
    { rank := 5, value := sortedValues }
  else if counts.getD 0 0 = 3 then
    let tripValue := firstSuchD ord (fun v => countOf v = 3)
    let kickers := sortedValues.filter (fun v => ¬ v = tripValue)
    { rank := 4, value := tripValue :: kickers }
  else if counts.getD 0 0 = 2 ∧ counts.getD 1 0 = 2 then
    let pairs := sortDescInt (ord.filter (fun v => countOf v = 2))
    let kicker := firstSuchD sortedValues (fun v => ¬ v ∈ pairs)
    { rank := 3, value := pairs ++ [kicker] }
  else if counts.getD 0 0 = 2 then
    let pairValue := firstSuchD ord (fun v => countOf v = 2)
    let kickers := sortedValues.filter (fun v => ¬ v = pairValue)
    { rank := 2, value := pairValue :: kickers }
  else
    { rank := 1, value := sortedValues }

structure PokerHand where
  cardStrings  : List GoStr
  cards        : List Card
  sortedValues : List Int
  suits        : List GoStr
  valueCounts  : List (Int × Nat)
  score        : HandScore
deriving DecidableEq

/-- The padding card literal of internal/poker/hand.go `NewPokerHand`,
byte for byte as it appears in the source file (a doubly encoded "2♠");
its first byte parses as value "2". -/
def PAD_CARD : GoStr := [0x32, 0xC3, 0xA2, 0xE2, 0x84, 0xA2, 0xC2, 0xA0]

/-- The card strings after the under-5 padding step of `NewPokerHand`. -/
def padCardStrings (cardStrings : List GoStr) : List GoStr :=
  if cardStrings.length < 5 then
    cardStrings ++ List.replicate (5 - cardStrings.length) PAD_CARD
  else cardStrings

/-- internal/poker/hand.go `NewPokerHand`, with the `ValueCounts` iteration
order passed explicitly. -/
def NewPokerHandOrd (cardStrings : List GoStr) (ord : List Int) : PokerHand :=
  let padded := padCardStrings cardStrings
  let cards := padded.map parseCard
  let vals := cards.map (fun c => VALUES c.value)
  let sortedValues := sortDescInt vals
  let suits := cards.map (fun c => c.suit)
  let vc := (firstKeys vals).map (fun v => (v, vals.count v))
  { cardStrings := padded, cards := cards, sortedValues := sortedValues,
    suits := suits, valueCounts := vc,
    score := evaluateHand sortedValues suits vc ord }

/-- The canonical key enumeration used by the deterministic wrapper. -/
def canonicalOrd (cardStrings : List GoStr) : List Int :=
  firstKeys ((padCardStrings cardStrings).map (fun c => VALUES (parseCard c).value))

/-- `NewPokerHand` with a fixed canonical map-iteration order (first
insertion order). Theorems about the order dependence quantify over
`NewPokerHandOrd` instead. -/
def NewPokerHand (cardStrings : List GoStr) : PokerHand :=
  NewPokerHandOrd cardStrings (canonicalOrd cardStrings)

/-- The element-wise comparison loop of internal/poker/hand.go
`CompareHands`: true when the first score sorts strictly before (beats) the
second. -/
def lexValueBefore : List Int → List Int → Bool
  | a :: as, b :: bs => if ¬ a = b then decide (b < a) else lexValueBefore as bs
  | _, _ => false

/-- The `sort.Slice` comparator of `CompareHands`: higher rank first, then
higher value array lexicographically; equal hands compare false. -/
def scoreBefore (a b : HandScore) : Bool :=
  if ¬ a.rank = b.rank then decide (b.rank < a.rank)
  else lexValueBefore a.value b.value

def handBefore (a b : PokerHand) : Bool := scoreBefore a.score b.score

/-- Insertion sort by a boolean "sorts strictly before" comparator. Go's
`sort.Slice` is an unstable comparison sort; it produces some permutation
with no comparator inversions, of which this is a deterministic instance. -/
def insertByBefore (lt : PokerHand → PokerHand → Bool) (x : PokerHand) :
    List PokerHand → List PokerHand
  | [] => [x]
  | y :: t => if lt x y then x :: y :: t else y :: insertByBefore lt x t

def sortByBefore (lt : PokerHand → PokerHand → Bool) (l : List PokerHand) :
    List PokerHand :=
  l.foldr (insertByBefore lt) []

/-- internal/poker/hand.go `CompareHands`. -/
def CompareHands (hands : List (List GoStr)) : List PokerHand :=
  sortByBefore handBefore (hands.map NewPokerHand)

/-! Concrete card strings of the deck (internal/poker/deck.go builds them as
value string ++ one of the three-byte suit symbols ♠ ♣ ♥ ♦). -/

def suitSpade : GoStr := [0xE2, 0x99, 0xA0]
def suitClub  : GoStr := [0xE2, 0x99, 0xA3]
def suitHeart : GoStr := [0xE2, 0x99, 0xA5]
def suitDiamond : GoStr := [0xE2, 0x99, 0xA6]

def mkCardStr (value : GoStr) (suit : GoStr) : GoStr := value ++ suit

/-! Concrete deck card strings used in the theorems below. -/

def val2 : GoStr := [0x32]
def val3 : GoStr := [0x33]
def val4 : GoStr := [0x34]
def val5 : GoStr := [0x35]
def val7 : GoStr := [0x37]
def val8 : GoStr := [0x38]
def val9 : GoStr := [0x39]
def val10 : GoStr := [0x31, 0x30]
def valQ : GoStr := [0x51]
def valK : GoStr := [0x4B]
def valA : GoStr := [0x41]

/-- Spec-side predicate (claim wording, not from the source): some five
consecutive rank values are present among the distinct ranks of the hand,
with the Ace counting both as 14 and as low rank 1. -/
def specStraightPresent (vals : List Int) : Bool :=
  let s := vals.dedup ++ (if (14 : Int) ∈ vals then [(1 : Int)] else [])
  (List.range 10).any (fun k =>
    [(k : Int) + 1, (k : Int) + 2, (k : Int) + 3, (k : Int) + 4, (k : Int) + 5].all
      (fun x => x ∈ s))

def wholePoolC2 : List GoStr :=
  [mkCardStr val2 suitHeart, mkCardStr val3 suitHeart, mkCardStr val5 suitHeart,
   mkCardStr val7 suitHeart, mkCardStr val8 suitClub, mkCardStr val9 suitSpade,
   mkCardStr val10 suitDiamond]

def subHandC2 : List GoStr :=
  [mkCardStr val2 suitHeart, mkCardStr val3 suitHeart, mkCardStr val5 suitHeart,
   mkCardStr val7 suitHeart, mkCardStr val8 suitClub]

/-- C2: the evaluator does not select the best 5-card combination of a
7-card pool: for this 7-card input there is a 5-card subset whose score
sorts strictly before (beats) the score of the whole pool, so the whole-pool
score is not the maximum over 5-card subsets under the compare order. -/
theorem C2_whole_pool_not_best_five :
    subHandC2.isSublist wholePoolC2 = true ∧
    subHandC2.length = 5 ∧ 5 < wholePoolC2.length ∧
    scoreBefore (NewPokerHand subHandC2).score (NewPokerHand wholePoolC2).score = true ∧
    (NewPokerHand wholePoolC2).score.rank = 1 ∧
    (NewPokerHand subHandC2).score.rank = 6 := by
  decide

def wheelPoolC4 : List GoStr :=
  [mkCardStr valA suitHeart, mkCardStr valK suitHeart, mkCardStr valQ suitHeart,
   mkCardStr val5 suitDiamond, mkCardStr val4 suitClub, mkCardStr val3 suitSpade,
   mkCardStr val2 suitHeart]

/-- C4: `hasStraight` misses the wheel in a 7-card pool that also holds other
high ranks: the A-2-3-4-5 straight is present among the distinct ranks (with
Ace low) but the code reports no straight, because the Ace is relocated to
the low end only when the second-highest distinct value is exactly 5. -/
theorem C4_wheel_missed_with_high_cards :
    hasStraight (NewPokerHand wheelPoolC4).sortedValues = false ∧
    specStraightPresent ((NewPokerHand wheelPoolC4).cards.map (fun c => VALUES c.value)) = true ∧
    hasStraight (sortDescInt [14, 5, 4, 3, 2]) = true := by
  decide

def fullHousePoolC7 : List GoStr :=
  [mkCardStr valA suitHeart, mkCardStr valA suitDiamond, mkCardStr valA suitClub,
   mkCardStr valK suitHeart, mkCardStr valK suitDiamond, mkCardStr valQ suitHeart,
   mkCardStr valQ suitDiamond]

/-- C7: hand evaluation is not deterministic: for the 7-card pool
A A A K K Q Q (a full house with two candidate pairs) two legal iteration
orders of the `ValueCounts` map keys produce different `HandScore`s, and the
first-insertion order selects the lower pair Q rather than the highest
rank K. -/
theorem C7_full_house_pair_order_dependent :
    List.Perm [(14 : Int), 13, 12] (canonicalOrd fullHousePoolC7) ∧
    List.Perm [(14 : Int), 12, 13] (canonicalOrd fullHousePoolC7) ∧
    ¬ (NewPokerHandOrd fullHousePoolC7 [14, 13, 12]).score =
        (NewPokerHandOrd fullHousePoolC7 [14, 12, 13]).score ∧
    (NewPokerHandOrd fullHousePoolC7 [14, 13, 12]).score.value = [14, 12] ∧
    (NewPokerHandOrd fullHousePoolC7 [14, 12, 13]).score.value = [14, 13] := by
  decide

/-- C10: `NewPokerHand` never rejects a short input: fewer than 5 card
strings are padded with copies of the placeholder card (the "2♠" literal of
the source, whose value byte parses as rank 2) up to 5 cards, the padded
hand is what gets evaluated, and an input missing two or more cards acquires
at least two artificial rank-2 cards. -/
theorem C10_short_input_padded (cs : List GoStr) (h : cs.length < 5) :
    (NewPokerHand cs).cardStrings = cs ++ List.replicate (5 - cs.length) PAD_CARD ∧
    (NewPokerHand cs).cardStrings.length = 5 ∧
    VALUES (parseCard PAD_CARD).value = 2 ∧
    NewPokerHand cs = NewPokerHand (cs ++ List.replicate (5 - cs.length) PAD_CARD) ∧
    (cs.length ≤ 3 →
      2 ≤ ((NewPokerHand cs).cards.map (fun c => VALUES c.value)).count 2) := by
  have hpad : padCardStrings cs = cs ++ List.replicate (5 - cs.length) PAD_CARD := by
    simp [padCardStrings, h]
  have hlen : (cs ++ List.replicate (5 - cs.length) PAD_CARD).length = 5 := by
    simp [List.length_append, List.length_replicate]
    omega
  have hpad2 : padCardStrings (cs ++ List.replicate (5 - cs.length) PAD_CARD) =
      cs ++ List.replicate (5 - cs.length) PAD_CARD := by
    simp [padCardStrings, hlen]
  have h1 : (NewPokerHand cs).cardStrings = cs ++ List.replicate (5 - cs.length) PAD_CARD := by
    simp [NewPokerHand, NewPokerHandOrd, hpad]
  refine ⟨h1, ?_, ?_, ?_, ?_⟩
  · rw [h1]; exact hlen
  · decide
  · simp [NewPokerHand, NewPokerHandOrd, canonicalOrd, hpad, hpad2]
  · intro h3
    have : ((cs ++ List.replicate (5 - cs.length) PAD_CARD).map
        (fun c => VALUES (parseCard c).value)).count 2 ≥ 2 := by
      have hrep : ((List.replicate (5 - cs.length) PAD_CARD).map
          (fun c => VALUES (parseCard c).value)) = List.replicate (5 - cs.length) 2 := by
        have hv : VALUES (parseCard PAD_CARD).value = 2 := by decide
        simp [List.map_replicate, hv]
      rw [List.map_append, List.count_append, hrep, List.count_replicate]
      simp
      omega
    simpa [NewPokerHand, NewPokerHandOrd, hpad, Function.comp] using this

/-- Closed instance of `C10_short_input_padded` at a concrete 3-card input
(two cards short), which indeed scores as one pair of 2s. -/
theorem C10_short_input_padded_witness :
    ([mkCardStr valA suitHeart, mkCardStr valK suitDiamond, mkCardStr valQ suitClub] :
        List GoStr).length < 5 ∧
    (NewPokerHand [mkCardStr valA suitHeart, mkCardStr valK suitDiamond,
        mkCardStr valQ suitClub]).cardStrings =
      [mkCardStr valA suitHeart, mkCardStr valK suitDiamond, mkCardStr valQ suitClub] ++
        List.replicate 2 PAD_CARD ∧
    (NewPokerHand [mkCardStr valA suitHeart, mkCardStr valK suitDiamond,
        mkCardStr valQ suitClub]).score = { rank := 2, value := [2, 14, 13, 12] } :=
  ⟨by decide,
   (C10_short_input_padded _ (by decide)).1,
   by decide⟩

/-! ## The Table state machine (internal/game: game.go and its methods)

Decisions are the Go strings handed to `processDecision`, modelled as char
lists. The external inputs of one `advanceGame` step — the decision returned
by the AI provider (with its error fallback "fold" already applied) and the
freshly shuffled deck of a new hand — are explicit parameters. -/

structure Player where
  name  : String
  chips : Int
  cards : List GoStr
deriving DecidableEq

def defaultPlayer : Player := { name := "", chips := 0, cards := [] }

structure GameState where
  players           : List Player
  deck              : List GoStr
  communityCards    : List GoStr
  pot               : Int
  currentPlayer     : Nat
  round             : String
  handNumber        : Int
  currentBet        : Int
  playerBets        : List (String × Int)
  lastRaiseAmount   : Int
  minRaise          : Int
  foldedPlayers     : List String
  dealerPosition    : Nat
  smallBlind        : Int
  bigBlind          : Int
  bettingComplete   : Bool
  eliminatedPlayers : List String
  gameEnded         : Bool
deriving DecidableEq

def roundPreflop : String := "preflop"
def roundFlop : String := "flop"
def roundTurn : String := "turn"
def roundRiver : String := "river"

/-- game.go helper `contains`. -/
def containsStr : List String → String → Bool
  | [], _ => false
  | s :: t, x => (s = x) || containsStr t x

/-- A Go map read `PlayerBets[name]`: 0 for a missing key. -/
def lookupBet : List (String × Int) → String → Int
  | [], _ => 0
  | (k, w) :: t, n => if k = n then w else lookupBet t n

/-- A Go map write `PlayerBets[name] = v`. -/
def setAssoc : List (String × Int) → String → Int → List (String × Int)
  | [], n, v => [(n, v)]
  | (k, w) :: t, n, v => if k = n then (k, v) :: t else (k, w) :: setAssoc t n v

def playersGetD (l : List Player) (i : Nat) : Player := l.getD i defaultPlayer

/-- Write through `&g.State.Players[i]`; out of range is unreachable in Go
(it would panic) and leaves the list unchanged here. -/
def modifyPlayer (l : List Player) (i : Nat) (f : Player → Player) : List Player :=
  l.set i (f (playersGetD l i))

/-- game.go `getActivePlayers`. -/
def getActivePlayers (s : GameState) : List Player :=
  s.players.filter (fun p => ¬ containsStr s.eliminatedPlayers p.name)

/-- One blind posting of table.go `postBlinds` against seat `i`: deduct
`min(blind, stack)`, add it to the pot, record it in `PlayerBets`, and (for
the big blind, `setCB`) set the current bet to it. -/
def postBlindHalf (s : GameState) (i : Nat) (blind : Int) (setCB : Bool) : GameState :=
  let p := playersGetD s.players i
  let amt := min blind p.chips
  { s with players := s.players.set i { p with chips := p.chips - amt },
           pot := s.pot + amt,
           playerBets := setAssoc s.playerBets p.name amt,
           currentBet := if setCB then amt else s.currentBet }

/-- The body of the blind-posting loop of table.go `postBlinds` for player
index `i`: the small-blind branch runs first, then the big-blind branch
re-reads the (possibly already reduced) stack. -/
def blindLoopStep (sbName bbName : String) (s : GameState) (i : Nat) : GameState :=
  let s1 :=
    if (playersGetD s.players i).name = sbName then postBlindHalf s i s.smallBlind false
    else s
  if (playersGetD s1.players i).name = bbName then postBlindHalf s1 i s1.bigBlind true
  else s1

/-- The dealer search of `postBlinds`: the dealer's index among the active
players, and the possibly moved dealer position. When the seated dealer is
eliminated the dealer button is first moved to the next non-eliminated seat
(and the dealer index among active players becomes 0); when no dealer is
found at all the Go variable keeps its initial -1. -/
def dealerIndexAndPos (s : GameState) (active : List Player) : Int × Nat :=
  let dealerName := (playersGetD s.players s.dealerPosition).name
  match active.findIdx? (fun p => p.name = dealerName) with
  | some k => ((k : Int), s.dealerPosition)
  | none =>
    match (List.range' 1 (s.players.length - 1)).findSome? (fun off =>
        let nextPos := (s.dealerPosition + off) % s.players.length
        if ¬ containsStr s.eliminatedPlayers (playersGetD s.players nextPos).name
        then some nextPos else none) with
    | some np => ((0 : Int), np)
    | none => ((-1 : Int), s.dealerPosition)

/-- table.go `postBlinds`. An out-of-range `DealerPosition` would panic in
Go and leaves the state unchanged here. -/
def postBlinds (s : GameState) : GameState :=
  let active := getActivePlayers s
  if active.length < 2 then s
  else if s.players.length ≤ s.dealerPosition then s
  else
    let dpair := dealerIndexAndPos s active
    let s1 := { s with dealerPosition := dpair.2 }
    let sbIndex := (dpair.1 + 1).toNat % active.length
    let bbIndex := (dpair.1 + 2).toNat % active.length
    let sbName := (active.getD sbIndex defaultPlayer).name
    let bbName := (active.getD bbIndex defaultPlayer).name
    let s2 := (List.range s1.players.length).foldl (blindLoopStep sbName bbName) s1
    let ftIndex := (bbIndex + 1) % active.length
    let ftName := (active.getD ftIndex defaultPlayer).name
    match s2.players.findIdx? (fun p => p.name = ftName) with
    | some j => { s2 with currentPlayer := j }
    | none => s2

/-! ### processDecision (table.go) -/

def raiseChars : List Char := ['r', 'a', 'i', 's', 'e']
def callChars : List Char := ['c', 'a', 'l', 'l']
def checkChars : List Char := ['c', 'h', 'e', 'c', 'k']

/-- Go `strings.HasPrefix`. -/
def strStartsWith : List Char → List Char → Bool
  | _, [] => true
  | [], _ :: _ => false
  | c :: t, p :: pt => (c = p) && strStartsWith t pt

/-- Whitespace as split by Go `strings.Fields` (the ASCII cases that can
occur in a decision string). -/
def isSpaceChar (c : Char) : Bool :=
  c = ' ' ∨ c = '\t' ∨ c = '\n' ∨ c = '\r'

def goFieldsAux : List Char → List Char → List (List Char)
  | [], acc => if acc = [] then [] else [acc.reverse]
  | c :: t, acc =>
    if isSpaceChar c then
      if acc = [] then goFieldsAux t [] else acc.reverse :: goFieldsAux t []
    else goFieldsAux t (c :: acc)

/-- Go `strings.Fields`. -/
def goFields (d : List Char) : List (List Char) := goFieldsAux d []

def digitsToNat (w : List Char) : Option Nat :=
  if ¬ w = [] ∧ w.all (fun c => c.isDigit) then
    some (w.foldl (fun acc c => acc * 10 + (c.toNat - 48)) 0)
  else none

/-- Go `strconv.Atoi` (overflow of 64-bit ints is out of scope: the engine
only ever parses small raise amounts). -/
def goAtoi (w : List Char) : Option Int :=
  match w with
  | [] => none
  | '+' :: r => (digitsToNat r).map (fun n => (n : Int))
  | '-' :: r => (digitsToNat r).map (fun n => -(n : Int))
  | _ => (digitsToNat w).map (fun n => (n : Int))

/-- The parsed second field of a "raise ..." decision, `none` when absent or
unparseable (Go then keeps the default raise amount). -/
def parseRaiseArg (d : List Char) : Option Int :=
  match goFields d with
  | _ :: a :: _ => goAtoi a
  | _ => none

/-- The `else` branch of `processDecision` (and the target of the recursive
`processDecision("fold", ...)` calls): the player joins the folded set. -/
def applyFold (s : GameState) (i : Nat) : GameState :=
  { s with foldedPlayers := s.foldedPlayers ++ [(playersGetD s.players i).name] }

/-- The `call` branch of `processDecision`; an unaffordable call becomes the
recursive `processDecision("fold", ...)`. -/
def applyCall (s : GameState) (i : Nat) : GameState :=
  let p := playersGetD s.players i
  let amountToCall := s.currentBet - lookupBet s.playerBets p.name
  if amountToCall ≤ p.chips then
    { s with pot := s.pot + amountToCall,
             players := s.players.set i { p with chips := p.chips - amountToCall },
             playerBets := setAssoc s.playerBets p.name s.currentBet }
  else applyFold s i

/-- The `check` branch: an illegal check (a call is owed) becomes the
recursive `processDecision("call", ...)` when affordable, else fold. -/
def applyCheck (s : GameState) (i : Nat) : GameState :=
  let p := playersGetD s.players i
  let amountToCall := s.currentBet - lookupBet s.playerBets p.name
  if amountToCall = 0 then s
  else if amountToCall ≤ p.chips then applyCall s i
  else applyFold s i

/-- The `raise` branch: the target total bet is
`max(requested, CurrentBet + MinRaise)`; an unfundable raise becomes the
recursive `processDecision("call", ...)` when the plain call is affordable,
else fold. -/
def applyRaise (s : GameState) (i : Nat) (requested : Option Int) : GameState :=
  let p := playersGetD s.players i
  let playerCurrentBet := lookupBet s.playerBets p.name
  let amountToCall := s.currentBet - playerCurrentBet
  let raiseAmount := requested.getD (s.currentBet + s.minRaise)
  let totalBet := max raiseAmount (s.currentBet + s.minRaise)
  let actualRaiseAmount := totalBet - playerCurrentBet
  if actualRaiseAmount ≤ p.chips then
    { s with lastRaiseAmount := totalBet - s.currentBet,
             currentBet := totalBet,
             pot := s.pot + actualRaiseAmount,
             players := s.players.set i { p with chips := p.chips - actualRaiseAmount },
             playerBets := setAssoc s.playerBets p.name totalBet }
  else if amountToCall ≤ p.chips then applyCall s i
  else applyFold s i

/-- table.go `processDecision`. Reading `&g.State.Players[playerIndex]` out
of range panics in Go; modelled as a stutter. The nested recursive
`processDecision` calls of the Go code run on the unmodified state and are
inlined in the branch helpers above. -/
def processDecision (s : GameState) (d : List Char) (i : Nat) : GameState :=
  if s.players.length ≤ i then s
  else if strStartsWith d raiseChars then applyRaise s i (parseRaiseArg d)
  else if d = callChars then applyCall s i
  else if d = checkChars then applyCheck s i
  else applyFold s i

/-! ### round advance and hand settlement (table.go) -/

/-- table.go `findFirstActivePlayerAfterDealer`. -/
def findFirstActivePlayerAfterDealer (s : GameState) : Nat :=
  match (List.range' 1 s.players.length).findSome? (fun off =>
      let nextPos := (s.dealerPosition + off) % s.players.length
      if ¬ containsStr s.eliminatedPlayers (playersGetD s.players nextPos).name
      then some nextPos else none) with
  | some np => np
  | none => s.dealerPosition

/-- table.go `isBettingRoundComplete`. -/
def isBettingRoundComplete (s : GameState) : Bool :=
  let active := getActivePlayers s
  let activeUnfolded := active.filter (fun p => ¬ containsStr s.foldedPlayers p.name)
  activeUnfolded.all (fun p =>
    ¬ (lookupBet s.playerBets p.name < s.currentBet ∧ 0 < p.chips))

/-- The common per-round reset of `advanceRound` before dealing. -/
def resetForRound (s : GameState) (tag : String) : GameState :=
  { s with round := tag, currentBet := 0, playerBets := [], lastRaiseAmount := 0,
           bettingComplete := false, currentPlayer := findFirstActivePlayerAfterDealer s }

/-- game.go `checkForEliminations` (the returned newly-eliminated list is
only logged and is dropped here). -/
def checkForEliminations (s : GameState) : GameState :=
  let elim := s.players.foldl
    (fun acc p => if p.chips = 0 ∧ ¬ containsStr acc p.name then acc ++ [p.name] else acc)
    s.eliminatedPlayers
  { s with eliminatedPlayers := elim }

/-- game.go `checkForTournamentEnd` (the `GameResult` record it builds is
presentation data and not part of the table state). -/
def checkForTournamentEnd (s : GameState) : GameState :=
  if (getActivePlayers s).length = 1 then { s with gameEnded := true } else s

def awardPot (s : GameState) (j : Nat) (amt : Int) : GameState :=
  { s with players := modifyPlayer s.players j (fun p => { p with chips := p.chips + amt }) }

/-- The early-split branch of `endHand`: integer division and remainder are
Go's truncated division (`Int.tdiv`/`Int.tmod`); the first `remainder`
players by ranking order get one extra chip; each share is paid to the first
seat with a matching name. -/
def splitAwardLoop (s : GameState) (shares : List (String × Int)) : GameState :=
  shares.foldl (fun st (pr : String × Int) =>
    match st.players.findIdx? (fun q => q.name = pr.1) with
    | some j => awardPot st j pr.2
    | none => st) s

/-- The showdown branch of `endHand`: every non-folded seat's hole cards plus
the community cards are evaluated and the whole pot goes to the first seat
whose serialized card strings equal those of the best-sorted hand. -/
def showdownAward (s : GameState) (active : List Player) : GameState :=
  let hands := active.map (fun p => p.cards ++ s.communityCards)
  match CompareHands hands with
  | [] => s
  | wh :: _ =>
    let winningCards := wh.cardStrings.flatten
    match s.players.findIdx? (fun p =>
        (¬ containsStr s.foldedPlayers p.name) ∧
        (p.cards ++ s.communityCards).flatten = winningCards) with
    | some j => awardPot s j s.pot
    | none => s

/-- The pot-award stage of table.go `endHand` (everything before the hand
bookkeeping). An empty seat list would make Go divide by zero in the
big-blind fallback; modelled as a stutter. -/
def endHandAward (s : GameState) : GameState :=
  let active := s.players.filter (fun p => ¬ containsStr s.foldedPlayers p.name)
  if active.length = 1 then
    match s.players.findIdx? (fun p => p.name = (active.getD 0 defaultPlayer).name) with
    | some j => awardPot s j s.pot
    | none => s
  else if active.length = 0 then
    if s.players.length = 0 then s
    else awardPot s ((s.dealerPosition + 2) % s.players.length) s.pot
  else if s.communityCards.length < 5 then
    let per := s.pot.tdiv (active.length : Int)
    let rem := s.pot.tmod (active.length : Int)
    splitAwardLoop s (active.enum.map (fun ip =>
      (ip.2.name, per + (if (ip.1 : Int) < rem then 1 else 0))))
  else showdownAward s active

/-- The last two lines of `endHand`: increment the hand counter and clear
all hole cards. -/
def bumpAndClear (s4 : GameState) : GameState :=
  { s4 with handNumber := s4.handNumber + 1,
            players := s4.players.map (fun p => { p with cards := [] }) }

/-- The bookkeeping tail of `endHand`: eliminations, tournament-end check,
hand-state reset, dealer rotation, hand counter, hole-card clearing. -/
def endHandCleanup (s : GameState) : GameState :=
  let s2 := checkForTournamentEnd (checkForEliminations s)
  let s3 := { s2 with pot := 0, round := roundPreflop, communityCards := [],
                      foldedPlayers := [], currentBet := 0, playerBets := [],
                      lastRaiseAmount := 0, bettingComplete := false }
  let s4 :=
    if 1 < (getActivePlayers s3).length then
      match (List.range' 1 (s3.players.length - 1)).findSome? (fun off =>
          let np := (s3.dealerPosition + off) % s3.players.length
          if ¬ containsStr s3.eliminatedPlayers (playersGetD s3.players np).name
          then some np else none) with
      | some np => { s3 with dealerPosition := np }
      | none => s3
    else s3
  bumpAndClear s4

/-- table.go `endHand`. -/
def endHand (s : GameState) : GameState := endHandCleanup (endHandAward s)

/-- table.go `advanceRound`. Community cards are dealt from the end of the
deck; after the river betting round the hand is settled. -/
def advanceRound (s : GameState) : GameState :=
  if s.round = roundPreflop then
    let base := resetForRound s roundFlop
    if 3 ≤ s.deck.length then
      let n := s.deck.length
      { base with communityCards := [s.deck.getD (n - 1) [], s.deck.getD (n - 2) [],
                    s.deck.getD (n - 3) []],
                  deck := s.deck.take (n - 3) }
    else base
  else if s.round = roundFlop then
    let base := resetForRound s roundTurn
    if 1 ≤ s.deck.length then
      { base with communityCards := s.communityCards ++ [s.deck.getD (s.deck.length - 1) []],
                  deck := s.deck.take (s.deck.length - 1) }
    else base
  else if s.round = roundTurn then
    let base := resetForRound s roundRiver
    if 1 ≤ s.deck.length then
      { base with communityCards := s.communityCards ++ [s.deck.getD (s.deck.length - 1) []],
                  deck := s.deck.take (s.deck.length - 1) }
    else base
  else if s.round = roundRiver then endHand s
  else s

/-- The hand-initialisation block of game.go `advanceGame`: install the
freshly shuffled deck, reset the per-hand state, deal two cards off the end
of the deck to every non-eliminated seat in seat order, and post blinds. -/
def dealStep (s : GameState) (i : Nat) : GameState :=
  if ¬ containsStr s.eliminatedPlayers (playersGetD s.players i).name then
    if 2 ≤ s.deck.length then
      let n := s.deck.length
      { s with players := modifyPlayer s.players i (fun p =>
          { p with cards := [s.deck.getD (n - 1) [], s.deck.getD (n - 2) []] }),
               deck := s.deck.take (n - 2) }
    else s
  else s

/-- The per-hand reset at the top of the hand-initialisation block. -/
def startHandReset (s : GameState) (newDeck : List GoStr) : GameState :=
  { s with deck := newDeck, currentBet := 0, playerBets := [],
           foldedPlayers := [], bettingComplete := false }

def startHand (s : GameState) (newDeck : List GoStr) : GameState :=
  let s1 := startHandReset s newDeck
  let s2 := (List.range s1.players.length).foldl dealStep s1
  postBlinds s2

def isHandStart (s : GameState) : Bool :=
  s.round = roundPreflop ∧ s.communityCards = [] ∧ s.playerBets = []

/-- The action part of game.go `advanceGame` (everything after the optional
hand initialisation): ask the current seat for a decision unless folded or
eliminated, end the hand early when at most one unfolded seat is left,
advance the turn, and advance the round when betting is complete. Reading
`Players[CurrentPlayer]` out of range panics in Go; modelled as a stutter. -/
def advanceGameAction (s1 : GameState) (decision : List Char) : GameState :=
  if s1.players.length ≤ s1.currentPlayer then s1
  else
    let cur := playersGetD s1.players s1.currentPlayer
    let s2 := if ¬ containsStr s1.foldedPlayers cur.name ∧
                  ¬ containsStr s1.eliminatedPlayers cur.name
              then processDecision s1 decision s1.currentPlayer else s1
    let actUnf := ((getActivePlayers s2).filter
        (fun p => ¬ containsStr s2.foldedPlayers p.name)).length
    if actUnf ≤ 1 then endHand s2
    else
      let s3 := { s2 with currentPlayer := (s2.currentPlayer + 1) % s2.players.length }
      if isBettingRoundComplete s3 then advanceRound s3 else s3

/-- game.go `advanceGame`, with the decision-provider response (after its
fold-on-error fallback) and the freshly shuffled deck as explicit inputs. -/
def advanceGame (s : GameState) (decision : List Char) (newDeck : List GoStr) : GameState :=
  if s.gameEnded then s
  else if isHandStart s ∧ (getActivePlayers s).length < 2 then
    checkForTournamentEnd s
  else
    advanceGameAction (if isHandStart s then startHand s newDeck else s) decision

/-- game.go `NewGameWithID`: four seats of 20 chips, blinds 5/10. -/
def initialPlayers : List Player :=
  [{ name := "google/gemini-2.5-flash", chips := 20, cards := [] },
   { name := "openai/gpt-5-nano", chips := 20, cards := [] },
   { name := "openai/gpt-oss-120b", chips := 20, cards := [] },
   { name := "anthropic/claude-3.5-haiku", chips := 20, cards := [] }]

def initialState : GameState :=
  { players := initialPlayers, deck := [], communityCards := [], pot := 0,
    currentPlayer := 0, round := roundPreflop, handNumber := 1, currentBet := 0,
    playerBets := [], lastRaiseAmount := 0, minRaise := 10, foldedPlayers := [],
    dealerPosition := 0, smallBlind := 5, bigBlind := 10, bettingComplete := false,
    eliminatedPlayers := [], gameEnded := false }

/-- The quantity game.go `checkChipConservation` audits: the sum of all
player stacks plus the pot. -/
def chipSum (s : GameState) : Int := (s.players.map Player.chips).sum + s.pot

/-- A whole table run: iterate `advanceGame` over a list of external inputs
(decision, fresh deck) from the initial state. -/
def runGame (steps : List (List Char × List GoStr)) : GameState :=
  steps.foldl (fun s st => advanceGame s st.1 st.2) initialState

/-! ## Chip conservation (C1): helper lemmas -/

lemma playersGetD_mem {l : List Player} {i : Nat} (h : i < l.length) :
    playersGetD l i ∈ l := by
  unfold playersGetD
  rw [List.getD_eq_getElem l defaultPlayer h]
  exact List.getElem_mem h

lemma playersChips_set (l : List Player) (i : Nat) (q : Player) (h : i < l.length) :
    ((l.set i q).map Player.chips).sum =
      (l.map Player.chips).sum - (playersGetD l i).chips + q.chips := by
  induction l generalizing i with
  | nil => simp at h
  | cons a t ih =>
    cases i with
    | zero => simp [playersGetD]; ring
    | succ j =>
      have hj : j < t.length := by simpa using h
      have ihj := ih j hj
      show ((a :: t.set j q).map Player.chips).sum = _
      simp only [List.map_cons, List.sum_cons]
      rw [ihj]
      unfold playersGetD
      simp only [List.getD_cons_succ]
      ring

lemma map_field_set (l : List Player) (i : Nat) (g : Player → Player)
    {α : Type} (f : Player → α) (hg : ∀ p, f (g p) = f p) :
    (l.set i (g (playersGetD l i))).map f = l.map f := by
  induction l generalizing i with
  | nil => simp
  | cons a t ih =>
    cases i with
    | zero => simp [playersGetD, hg]
    | succ j => simpa [List.set, playersGetD] using ih j

lemma modifyPlayer_map_field (l : List Player) (i : Nat) (g : Player → Player)
    {α : Type} (f : Player → α) (hg : ∀ p, f (g p) = f p) :
    (modifyPlayer l i g).map f = l.map f :=
  map_field_set l i g f hg

lemma modifyPlayer_chips_add (l : List Player) (i : Nat) (amt : Int)
    (h : i < l.length) :
    ((modifyPlayer l i (fun p => { p with chips := p.chips + amt })).map Player.chips).sum =
      (l.map Player.chips).sum + amt := by
  unfold modifyPlayer
  rw [playersChips_set l i _ h]
  ring

def betsSum (bets : List (String × Int)) : Int := (bets.map Prod.snd).sum

lemma betsSum_setAssoc (bets : List (String × Int)) (n : String) (v : Int) :
    betsSum (setAssoc bets n v) = betsSum bets - lookupBet bets n + v := by
  induction bets with
  | nil => simp [setAssoc, lookupBet, betsSum]
  | cons kw t ih =>
    obtain ⟨k, w⟩ := kw
    by_cases hk : k = n
    · simp [setAssoc, lookupBet, hk, betsSum]
      ring
    · simp [setAssoc, lookupBet, hk, betsSum] at ih ⊢
      rw [ih]
      ring

lemma lookupBet_nonneg {bets : List (String × Int)} (n : String)
    (h : ∀ pr ∈ bets, 0 ≤ pr.2) : 0 ≤ lookupBet bets n := by
  induction bets with
  | nil => simp [lookupBet]
  | cons kw t ih =>
    obtain ⟨k, w⟩ := kw
    by_cases hk : k = n
    · simpa [lookupBet, hk] using h (k, w) (by simp)
    · exact by simpa [lookupBet, hk] using ih (fun pr hpr => h pr (by simp [hpr]))

lemma betsSum_nonneg {bets : List (String × Int)}
    (h : ∀ pr ∈ bets, 0 ≤ pr.2) : 0 ≤ betsSum bets := by
  induction bets with
  | nil => simp [betsSum]
  | cons kw t ih =>
    have h1 := h kw (by simp)
    have h2 := ih (fun pr hpr => h pr (by simp [hpr]))
    simp [betsSum] at h2 ⊢
    omega

lemma lookupBet_le_betsSum {bets : List (String × Int)} (n : String)
    (h : ∀ pr ∈ bets, 0 ≤ pr.2) : lookupBet bets n ≤ betsSum bets := by
  induction bets with
  | nil => simp [lookupBet, betsSum]
  | cons kw t ih =>
    obtain ⟨k, w⟩ := kw
    have hw : 0 ≤ w := h (k, w) (by simp)
    have ht : ∀ pr ∈ t, 0 ≤ pr.2 := fun pr hpr => h pr (by simp [hpr])
    by_cases hk : k = n
    · have hs := betsSum_nonneg ht
      simp [betsSum] at hs
      simp [lookupBet, hk, betsSum]
      omega
    · have hs := ih ht
      simp [lookupBet, betsSum] at hs
      simp [lookupBet, hk, betsSum]
      omega

lemma betsNonneg_setAssoc {bets : List (String × Int)} {n : String} {v : Int}
    (h : ∀ pr ∈ bets, 0 ≤ pr.2) (hv : 0 ≤ v) :
    ∀ pr ∈ setAssoc bets n v, 0 ≤ pr.2 := by
  induction bets with
  | nil => intro pr hpr; simp [setAssoc] at hpr; simp [hpr, hv]
  | cons kw t ih =>
    obtain ⟨k, w⟩ := kw
    intro pr hpr
    by_cases hk : k = n
    · simp [setAssoc, hk] at hpr
      rcases hpr with hpr | hpr
      · simp [hpr, hv]
      · exact h pr (by simp [hpr])
    · simp [setAssoc, hk] at hpr
      rcases hpr with hpr | hpr
      · exact h pr (by simp [hpr])
      · exact ih (fun q hq => h q (by simp [hq])) pr hpr

/-- The internal consistency invariant that holds in every reachable table
state: the pot is at least the sum of the current-round bets, bets, stacks
and bet levels are non-negative, and the configured amounts are
non-negative. -/
def GoodState (s : GameState) : Prop :=
  0 ≤ s.pot ∧ betsSum s.playerBets ≤ s.pot ∧ (∀ pr ∈ s.playerBets, 0 ≤ pr.2) ∧
  (∀ p ∈ s.players, 0 ≤ p.chips) ∧ 0 ≤ s.currentBet ∧ 0 ≤ s.smallBlind ∧
  0 ≤ s.bigBlind ∧ 0 ≤ s.minRaise

lemma applyFold_chipSum (s : GameState) (i : Nat) :
    chipSum (applyFold s i) = chipSum s := rfl

lemma applyFold_length (s : GameState) (i : Nat) :
    (applyFold s i).players.length = s.players.length := rfl

lemma applyFold_good (s : GameState) (i : Nat) (hg : GoodState s) :
    GoodState (applyFold s i) := by
  obtain ⟨h1, h2, h3, h4, h5, h6, h7, h8⟩ := hg
  exact ⟨h1, h2, h3, h4, h5, h6, h7, h8⟩

lemma applyCall_chipSum (s : GameState) (i : Nat) (h : i < s.players.length) :
    chipSum (applyCall s i) = chipSum s := by
  unfold applyCall
  simp only []
  split
  · unfold chipSum
    dsimp only
    rw [playersChips_set s.players i _ h]
    dsimp only
    ring
  · rfl

lemma applyCall_length (s : GameState) (i : Nat) :
    (applyCall s i).players.length = s.players.length := by
  unfold applyCall
  simp only []
  split
  · dsimp only
    exact List.length_set s.players i _
  · rfl

lemma applyCall_good (s : GameState) (i : Nat) (h : i < s.players.length)
    (hg : GoodState s) : GoodState (applyCall s i) := by
  obtain ⟨h1, h2, h3, h4, h5, h6, h7, h8⟩ := hg
  unfold applyCall
  simp only []
  split
  case isTrue hc =>
    refine ⟨?_, ?_, ?_, ?_, h5, h6, h7, h8⟩
    · dsimp only
      have hlk := lookupBet_nonneg (playersGetD s.players i).name h3
      have hls := lookupBet_le_betsSum (playersGetD s.players i).name h3
      have hbs := betsSum_nonneg h3
      omega
    · dsimp only
      rw [betsSum_setAssoc]
      omega
    · dsimp only
      exact betsNonneg_setAssoc h3 h5
    · dsimp only
      intro p hp
      rcases List.mem_or_eq_of_mem_set hp with hp | hp
      · exact h4 p hp
      · have hc' := h4 _ (playersGetD_mem h)
        subst hp
        dsimp only
        omega
  case isFalse =>
    exact applyFold_good s i ⟨h1, h2, h3, h4, h5, h6, h7, h8⟩

lemma applyCheck_chipSum (s : GameState) (i : Nat) (h : i < s.players.length) :
    chipSum (applyCheck s i) = chipSum s := by
  unfold applyCheck
  simp only []
  split
  · rfl
  · split
    · exact applyCall_chipSum s i h
    · rfl

lemma applyCheck_length (s : GameState) (i : Nat) :
    (applyCheck s i).players.length = s.players.length := by
  unfold applyCheck
  simp only []
  split
  · rfl
  · split
    · exact applyCall_length s i
    · rfl

lemma applyCheck_good (s : GameState) (i : Nat) (h : i < s.players.length)
    (hg : GoodState s) : GoodState (applyCheck s i) := by
  unfold applyCheck
  simp only []
  split
  · exact hg
  · split
    · exact applyCall_good s i h hg
    · exact applyFold_good s i hg

lemma applyRaise_chipSum (s : GameState) (i : Nat) (r : Option Int)
    (h : i < s.players.length) : chipSum (applyRaise s i r) = chipSum s := by
  unfold applyRaise
  simp only []
  split
  · unfold chipSum
    dsimp only
    rw [playersChips_set s.players i _ h]
    dsimp only
    ring
  · split
    · exact applyCall_chipSum s i h
    · rfl

lemma applyRaise_length (s : GameState) (i : Nat) (r : Option Int) :
    (applyRaise s i r).players.length = s.players.length := by
  unfold applyRaise
  simp only []
  split
  · dsimp only
    exact List.length_set s.players i _
  · split
    · exact applyCall_length s i
    · rfl

lemma applyRaise_good (s : GameState) (i : Nat) (r : Option Int)
    (h : i < s.players.length) (hg : GoodState s) : GoodState (applyRaise s i r) := by
  obtain ⟨h1, h2, h3, h4, h5, h6, h7, h8⟩ := hg
  unfold applyRaise
  simp only []
  split
  case isTrue hc =>
    refine ⟨?_, ?_, ?_, ?_, ?_, h6, h7, h8⟩
    all_goals dsimp only
    · have hlk := lookupBet_nonneg (playersGetD s.players i).name h3
      have hls := lookupBet_le_betsSum (playersGetD s.players i).name h3
      have hbs := betsSum_nonneg h3
      have hmax : s.currentBet + s.minRaise ≤
          max (r.getD (s.currentBet + s.minRaise)) (s.currentBet + s.minRaise) :=
        le_max_right _ _
      omega
    · rw [betsSum_setAssoc]
      have hmax : s.currentBet + s.minRaise ≤
          max (r.getD (s.currentBet + s.minRaise)) (s.currentBet + s.minRaise) :=
        le_max_right _ _
      omega
    · refine betsNonneg_setAssoc h3 ?_
      have hmax : s.currentBet + s.minRaise ≤
          max (r.getD (s.currentBet + s.minRaise)) (s.currentBet + s.minRaise) :=
        le_max_right _ _
      omega
    · intro p hp
      rcases List.mem_or_eq_of_mem_set hp with hp | hp
      · exact h4 p hp
      · have hc' := h4 _ (playersGetD_mem h)
        subst hp
        dsimp only
        omega
    · have hmax : s.currentBet + s.minRaise ≤
          max (r.getD (s.currentBet + s.minRaise)) (s.currentBet + s.minRaise) :=
        le_max_right _ _
      omega
  case isFalse =>
    split
    · exact applyCall_good s i h ⟨h1, h2, h3, h4, h5, h6, h7, h8⟩
    · exact applyFold_good s i ⟨h1, h2, h3, h4, h5, h6, h7, h8⟩

lemma processDecision_chipSum (s : GameState) (d : List Char) (i : Nat) :
    chipSum (processDecision s d i) = chipSum s := by
  unfold processDecision
  split
  · rfl
  · rename_i hlen
    have h : i < s.players.length := by omega
    split
    · exact applyRaise_chipSum s i _ h
    · split
      · exact applyCall_chipSum s i h
      · split
        · exact applyCheck_chipSum s i h
        · rfl

lemma processDecision_length (s : GameState) (d : List Char) (i : Nat) :
    (processDecision s d i).players.length = s.players.length := by
  unfold processDecision
  split
  · rfl
  · split
    · exact applyRaise_length s i _
    · split
      · exact applyCall_length s i
      · split
        · exact applyCheck_length s i
        · rfl

lemma processDecision_good (s : GameState) (d : List Char) (i : Nat)
    (hg : GoodState s) : GoodState (processDecision s d i) := by
  unfold processDecision
  split
  · exact hg
  · rename_i hlen
    have h : i < s.players.length := by omega
    split
    · exact applyRaise_good s i _ h hg
    · split
      · exact applyCall_good s i h hg
      · split
        · exact applyCheck_good s i h hg
        · exact applyFold_good s i hg

/-- A fold keeps any state property its steps keep. -/
lemma foldl_preserve {β : Type} (f : GameState → β → GameState) (P : GameState → Prop)
    (l : List β) (s : GameState)
    (hstep : ∀ s' b, b ∈ l → P s' → P (f s' b)) (hs : P s) : P (l.foldl f s) := by
  induction l generalizing s with
  | nil => exact hs
  | cons b t ih =>
    exact ih (f s b) (fun s' b' hb' => hstep s' b' (by simp [hb'])) (hstep s b (by simp) hs)

/-- The combined preservation property for the per-seat loops. -/
def LoopInv (c : Int) (n : Nat) (s : GameState) : Prop :=
  GoodState s ∧ chipSum s = c ∧ s.players.length = n

lemma postBlindHalf_pres (s : GameState) (i : Nat) (blind : Int) (setCB : Bool)
    (h : i < s.players.length) (hb : 0 ≤ blind) (hg : GoodState s) :
    GoodState (postBlindHalf s i blind setCB) ∧
    chipSum (postBlindHalf s i blind setCB) = chipSum s ∧
    (postBlindHalf s i blind setCB).players.length = s.players.length := by
  obtain ⟨h1, h2, h3, h4, h5, h6, h7, h8⟩ := hg
  have hcp : 0 ≤ (playersGetD s.players i).chips := h4 _ (playersGetD_mem h)
  have hamt : 0 ≤ min blind (playersGetD s.players i).chips := le_min hb hcp
  have hamt2 : min blind (playersGetD s.players i).chips ≤ (playersGetD s.players i).chips :=
    min_le_right _ _
  refine ⟨⟨?_, ?_, ?_, ?_, ?_, h6, h7, h8⟩, ?_, ?_⟩
  · unfold postBlindHalf
    dsimp only
    omega
  · unfold postBlindHalf
    dsimp only
    rw [betsSum_setAssoc]
    have hlk := lookupBet_nonneg (playersGetD s.players i).name h3
    omega
  · unfold postBlindHalf
    dsimp only
    exact betsNonneg_setAssoc h3 hamt
  · unfold postBlindHalf
    dsimp only
    intro p hp
    rcases List.mem_or_eq_of_mem_set hp with hp | hp
    · exact h4 p hp
    · subst hp
      dsimp only
      omega
  · unfold postBlindHalf
    dsimp only
    split
    · exact hamt
    · exact h5
  · unfold postBlindHalf chipSum
    dsimp only
    rw [playersChips_set s.players i _ h]
    dsimp only
    ring
  · unfold postBlindHalf
    dsimp only
    exact List.length_set s.players i _

lemma blindLoopStep_pres (sbName bbName : String) (c : Int) (n : Nat)
    (s : GameState) (i : Nat) (hi : i < n) (hs : LoopInv c n s) :
    LoopInv c n (blindLoopStep sbName bbName s i) := by
  obtain ⟨hg, hc, hn⟩ := hs
  unfold blindLoopStep
  simp only []
  have step1 : ∀ t : GameState, GoodState t → chipSum t = c → t.players.length = n →
      LoopInv c n (if (playersGetD t.players i).name = bbName
        then postBlindHalf t i t.bigBlind true else t) := by
    intro t hgt hct hnt
    split
    · have := postBlindHalf_pres t i t.bigBlind true (by omega) hgt.2.2.2.2.2.2.1 hgt
      exact ⟨this.1, by rw [this.2.1, hct], by rw [this.2.2, hnt]⟩
    · exact ⟨hgt, hct, hnt⟩
  split
  · have := postBlindHalf_pres s i s.smallBlind false (by omega) hg.2.2.2.2.2.1 hg
    exact step1 _ this.1 (by rw [this.2.1, hc]) (by rw [this.2.2, hn])
  · exact step1 s hg hc hn

lemma postBlinds_pres (s : GameState) (hg : GoodState s) :
    GoodState (postBlinds s) ∧ chipSum (postBlinds s) = chipSum s ∧
    (postBlinds s).players.length = s.players.length := by
  unfold postBlinds
  simp only []
  split
  · exact ⟨hg, rfl, rfl⟩
  · split
    · exact ⟨hg, rfl, rfl⟩
    · have hfold : LoopInv (chipSum s) s.players.length
          ((List.range s.players.length).foldl
            (blindLoopStep
              ((getActivePlayers s).getD
                (((dealerIndexAndPos s (getActivePlayers s)).1 + 1).toNat %
                  (getActivePlayers s).length) defaultPlayer).name
              ((getActivePlayers s).getD
                (((dealerIndexAndPos s (getActivePlayers s)).1 + 2).toNat %
                  (getActivePlayers s).length) defaultPlayer).name)
            { s with dealerPosition := (dealerIndexAndPos s (getActivePlayers s)).2 }) := by
        refine foldl_preserve _ _ _ _ ?_ ⟨hg, rfl, rfl⟩
        intro s' b hb hs'
        exact blindLoopStep_pres _ _ _ _ s' b (by simpa using List.mem_range.mp hb) hs'
      obtain ⟨hg2, hc2, hn2⟩ := hfold
      split
      · exact ⟨hg2, hc2, hn2⟩
      · exact ⟨hg2, hc2, hn2⟩

lemma modifyPlayer_length (l : List Player) (i : Nat) (g : Player → Player) :
    (modifyPlayer l i g).length = l.length := List.length_set l i _

lemma playersGetD_oob {l : List Player} {i : Nat} (h : l.length ≤ i) :
    playersGetD l i = defaultPlayer := by
  unfold playersGetD
  rw [List.getD_eq_getElem?_getD, List.getElem?_eq_none h]
  rfl

lemma modifyCards_chips_sum (l : List Player) (i : Nat) (cds : List GoStr) :
    ((modifyPlayer l i (fun p => { p with cards := cds })).map Player.chips).sum =
      (l.map Player.chips).sum := by
  rw [modifyPlayer_map_field l i (fun p => { p with cards := cds }) Player.chips
    (fun p => rfl)]

lemma dealStep_pres (c : Int) (n : Nat) (s : GameState) (i : Nat)
    (hs : LoopInv c n s) : LoopInv c n (dealStep s i) := by
  obtain ⟨⟨h1, h2, h3, h4, h5, h6, h7, h8⟩, hc, hn⟩ := hs
  unfold dealStep
  split
  · split
    · refine ⟨⟨h1, h2, h3, ?_, h5, h6, h7, h8⟩, ?_, ?_⟩
      · dsimp only
        intro p hp
        unfold modifyPlayer at hp
        rcases List.mem_or_eq_of_mem_set hp with hp | hp
        · exact h4 p hp
        · subst hp
          dsimp only
          by_cases hlt : i < s.players.length
          · exact h4 _ (playersGetD_mem hlt)
          · rw [playersGetD_oob (by omega)]
            norm_num [defaultPlayer]
      · unfold chipSum
        dsimp only
        rw [modifyCards_chips_sum]
        exact hc
      · dsimp only
        rw [modifyPlayer_length]
        exact hn
    · exact ⟨⟨h1, h2, h3, h4, h5, h6, h7, h8⟩, hc, hn⟩
  · exact ⟨⟨h1, h2, h3, h4, h5, h6, h7, h8⟩, hc, hn⟩

lemma startHandReset_pres (s : GameState) (newDeck : List GoStr) (hg : GoodState s) :
    GoodState (startHandReset s newDeck) ∧
    chipSum (startHandReset s newDeck) = chipSum s ∧
    (startHandReset s newDeck).players.length = s.players.length := by
  obtain ⟨h1, h2, h3, h4, h5, h6, h7, h8⟩ := hg
  refine ⟨⟨h1, ?_, ?_, h4, le_refl 0, h6, h7, h8⟩, rfl, rfl⟩
  · unfold startHandReset betsSum
    dsimp only
    simpa using h1
  · unfold startHandReset
    dsimp only
    intro pr hpr
    simp at hpr

lemma startHand_pres (s : GameState) (newDeck : List GoStr) (hg : GoodState s) :
    GoodState (startHand s newDeck) ∧ chipSum (startHand s newDeck) = chipSum s ∧
    (startHand s newDeck).players.length = s.players.length := by
  unfold startHand
  simp only []
  obtain ⟨hg1, hc1, hn1⟩ := startHandReset_pres s newDeck hg
  have hfold : LoopInv (chipSum s) s.players.length
      ((List.range (startHandReset s newDeck).players.length).foldl dealStep
        (startHandReset s newDeck)) := by
    refine foldl_preserve _ _ _ _ ?_ ⟨hg1, hc1, hn1⟩
    intro s' b _ hs'
    exact dealStep_pres _ _ s' b hs'
  obtain ⟨hg2, hc2, hn2⟩ := hfold
  have hpb := postBlinds_pres _ hg2
  exact ⟨hpb.1, by rw [hpb.2.1, hc2], by rw [hpb.2.2, hn2]⟩

lemma findIdx?_bound {α : Type} (l : List α) (p : α → Bool) :
    ∀ j, l.findIdx? p = some j → j < l.length := by
  induction l with
  | nil => intro j h; simp [List.findIdx?] at h
  | cons a t ih =>
    intro j h
    rw [List.findIdx?_cons] at h
    by_cases hp : p a
    · simp [hp] at h
      simp
      omega
    · simp [hp] at h
      obtain ⟨k, hk, hkj⟩ := h
      have := ih k hk
      simp
      omega

lemma findIdx?_some_of_exists {α : Type} (l : List α) (p : α → Bool)
    (hx : ∃ x ∈ l, p x = true) : ∃ j, l.findIdx? p = some j := by
  induction l with
  | nil => simp at hx
  | cons a t ih =>
    rw [List.findIdx?_cons]
    by_cases hp : p a
    · exact ⟨0, by simp [hp]⟩
    · obtain ⟨x, hxl, hpx⟩ := hx
      rcases List.mem_cons.mp hxl with hxa | hxt
      · subst hxa; exact absurd hpx (by simp [hp])
      · obtain ⟨j, hj⟩ := ih ⟨x, hxt, hpx⟩
        exact ⟨j + 1, by simp [hp, hj]⟩

lemma awardPot_chips_sum (s : GameState) (j : Nat) (amt : Int)
    (hj : j < s.players.length) :
    ((awardPot s j amt).players.map Player.chips).sum =
      (s.players.map Player.chips).sum + amt := by
  unfold awardPot
  dsimp only
  exact modifyPlayer_chips_add s.players j amt hj

lemma awardPot_names (s : GameState) (j : Nat) (amt : Int) :
    (awardPot s j amt).players.map Player.name = s.players.map Player.name := by
  unfold awardPot
  dsimp only
  exact modifyPlayer_map_field s.players j _ Player.name (fun p => rfl)

lemma awardPot_chipsNonneg (s : GameState) (j : Nat) (amt : Int)
    (h4 : ∀ p ∈ s.players, 0 ≤ p.chips) (hamt : 0 ≤ amt) :
    ∀ p ∈ (awardPot s j amt).players, 0 ≤ p.chips := by
  intro p hp
  unfold awardPot modifyPlayer at hp
  dsimp only at hp
  rcases List.mem_or_eq_of_mem_set hp with hp | hp
  · exact h4 p hp
  · subst hp
    dsimp only
    by_cases hlt : j < s.players.length
    · have := h4 _ (playersGetD_mem hlt)
      omega
    · rw [playersGetD_oob (by omega)]
      simpa [defaultPlayer] using hamt

lemma awardPot_length (s : GameState) (j : Nat) (amt : Int) :
    (awardPot s j amt).players.length = s.players.length := by
  unfold awardPot
  dsimp only
  exact modifyPlayer_length s.players j _

lemma splitAwardLoop_props (shares : List (String × Int)) : ∀ (s : GameState),
    (∀ pr ∈ shares, pr.1 ∈ s.players.map Player.name) →
    (∀ pr ∈ shares, 0 ≤ pr.2) →
    (∀ p ∈ s.players, 0 ≤ p.chips) →
    ((splitAwardLoop s shares).players.map Player.chips).sum =
        (s.players.map Player.chips).sum + (shares.map Prod.snd).sum ∧
    (splitAwardLoop s shares).pot = s.pot ∧
    (splitAwardLoop s shares).players.map Player.name = s.players.map Player.name ∧
    (∀ p ∈ (splitAwardLoop s shares).players, 0 ≤ p.chips) ∧
    (splitAwardLoop s shares).smallBlind = s.smallBlind ∧
    (splitAwardLoop s shares).bigBlind = s.bigBlind ∧
    (splitAwardLoop s shares).minRaise = s.minRaise ∧
    (splitAwardLoop s shares).players.length = s.players.length := by
  induction shares with
  | nil =>
    intro s _ _ h4
    refine ⟨by simp [splitAwardLoop], rfl, rfl, h4, rfl, rfl, rfl, rfl⟩
  | cons pr rest ih =>
    intro s hnames hnn h4
    have hname : pr.1 ∈ s.players.map Player.name := hnames pr (by simp)
    obtain ⟨q, hq, hqn⟩ := List.mem_map.mp hname
    have hex : ∃ x ∈ s.players, (fun r => decide (r.name = pr.1)) x = true :=
      ⟨q, hq, by simp [hqn]⟩
    obtain ⟨j, hj⟩ := findIdx?_some_of_exists s.players _ hex
    have hjlt := findIdx?_bound s.players _ j hj
    have hstep : splitAwardLoop s (pr :: rest) =
        splitAwardLoop (awardPot s j pr.2) rest := by
      unfold splitAwardLoop
      simp only [List.foldl_cons, hj]
    have hprn : 0 ≤ pr.2 := hnn pr (by simp)
    have hrest := ih (awardPot s j pr.2)
      (by
        intro r hr
        rw [awardPot_names]
        exact hnames r (by simp [hr]))
      (fun r hr => hnn r (by simp [hr]))
      (awardPot_chipsNonneg s j pr.2 h4 hprn)
    rw [hstep]
    obtain ⟨e1, e2, e3, e4, e5, e6, e7, e8⟩ := hrest
    refine ⟨?_, ?_, ?_, e4, ?_, ?_, ?_, ?_⟩
    · rw [e1, awardPot_chips_sum s j pr.2 hjlt]
      simp
      ring
    · rw [e2]; rfl
    · rw [e3, awardPot_names]
    · rw [e5]; rfl
    · rw [e6]; rfl
    · rw [e7]; rfl
    · rw [e8, awardPot_length]

lemma sum_range_shares (n : Nat) (per rem : Int) (h0 : 0 ≤ rem) :
    ((List.range n).map (fun i : Nat => per + if (i : Int) < rem then 1 else 0)).sum =
      per * n + min rem n := by
  induction n with
  | zero => simp; omega
  | succ m ih =>
    rw [List.range_succ, List.map_append, List.sum_append, ih]
    simp only [List.map_cons, List.map_nil, List.sum_cons, List.sum_nil]
    have hm : per * ((m : Int) + 1) = per * m + per := by ring
    by_cases hlt : (m : Int) < rem
    · simp only [hlt, if_pos]
      push_cast
      omega
    · simp only [hlt, if_neg, not_false_iff]
      push_cast
      omega

lemma insertByBefore_perm (lt : PokerHand → PokerHand → Bool) (x : PokerHand) :
    ∀ l : List PokerHand, List.Perm (insertByBefore lt x l) (x :: l) := by
  intro l
  induction l with
  | nil => simp [insertByBefore]
  | cons y t ih =>
    unfold insertByBefore
    split
    · exact List.Perm.refl _
    · exact List.Perm.trans (List.Perm.cons y ih) (List.Perm.swap x y t)

lemma sortByBefore_perm (lt : PokerHand → PokerHand → Bool) (l : List PokerHand) :
    List.Perm (sortByBefore lt l) l := by
  induction l with
  | nil => simp [sortByBefore]
  | cons x t ih =>
    unfold sortByBefore at ih ⊢
    simp only [List.foldr_cons]
    exact List.Perm.trans (insertByBefore_perm lt x _) (List.Perm.cons x ih)

lemma NewPokerHand_cardStrings (cs : List GoStr) (h : ¬ cs.length < 5) :
    (NewPokerHand cs).cardStrings = cs := by
  simp [NewPokerHand, NewPokerHandOrd, padCardStrings, h]

lemma showdownAward_props (s : GameState) (active : List Player)
    (hact : active = s.players.filter (fun p => ¬ containsStr s.foldedPlayers p.name))
    (hne : active ≠ [])
    (hcc : ¬ s.communityCards.length < 5)
    (hpot : 0 ≤ s.pot)
    (h4 : ∀ p ∈ s.players, 0 ≤ p.chips) :
    ((showdownAward s active).players.map Player.chips).sum =
        (s.players.map Player.chips).sum + s.pot ∧
    (showdownAward s active).pot = s.pot ∧
    (∀ p ∈ (showdownAward s active).players, 0 ≤ p.chips) ∧
    (showdownAward s active).smallBlind = s.smallBlind ∧
    (showdownAward s active).bigBlind = s.bigBlind ∧
    (showdownAward s active).minRaise = s.minRaise ∧
    (showdownAward s active).players.length = s.players.length := by
  unfold showdownAward
  simp only []
  have hhne : active.map (fun p => p.cards ++ s.communityCards) ≠ [] := by
    simpa using hne
  split
  case h_1 heq =>
    exfalso
    unfold CompareHands at heq
    have := sortByBefore_perm handBefore
      ((active.map (fun p => p.cards ++ s.communityCards)).map NewPokerHand)
    rw [heq] at this
    have := this.length_eq
    simp at this
    exact hne (List.eq_nil_of_length_eq_zero this.symm)
  case h_2 wh rest heq =>
    unfold CompareHands at heq
    have hmem : wh ∈ (active.map (fun p => p.cards ++ s.communityCards)).map NewPokerHand := by
      have hperm := sortByBefore_perm handBefore
        ((active.map (fun p => p.cards ++ s.communityCards)).map NewPokerHand)
      rw [heq] at hperm
      exact hperm.mem_iff.mp (by simp)
    obtain ⟨hc, hhc, hwh⟩ := List.mem_map.mp hmem
    obtain ⟨pa, hpa, hpac⟩ := List.mem_map.mp hhc
    have hlen5 : ¬ hc.length < 5 := by
      rw [← hpac]
      simp
      omega
    have hwcs : wh.cardStrings = pa.cards ++ s.communityCards := by
      rw [← hwh, NewPokerHand_cardStrings hc hlen5, ← hpac]
    have hpafil := List.mem_filter.mp (hact ▸ hpa)
    have hex : ∃ x ∈ s.players, (fun p => decide (¬ containsStr s.foldedPlayers p.name = true ∧
        (p.cards ++ s.communityCards).flatten = wh.cardStrings.flatten)) x = true := by
      refine ⟨pa, hpafil.1, ?_⟩
      simp only [decide_eq_true_eq]
      exact ⟨by simpa using hpafil.2, by rw [hwcs]⟩
    obtain ⟨j, hj⟩ := findIdx?_some_of_exists s.players _ hex
    have hjlt := findIdx?_bound s.players _ j hj
    rw [hj]
    exact ⟨awardPot_chips_sum s j s.pot hjlt, rfl,
      awardPot_chipsNonneg s j s.pot h4 hpot, rfl, rfl, rfl, awardPot_length s j s.pot⟩

lemma endHandAward_props (s : GameState) (hpot : 0 ≤ s.pot)
    (hne : s.players ≠ []) (h4 : ∀ p ∈ s.players, 0 ≤ p.chips) :
    ((endHandAward s).players.map Player.chips).sum =
        (s.players.map Player.chips).sum + s.pot ∧
    (endHandAward s).pot = s.pot ∧
    (∀ p ∈ (endHandAward s).players, 0 ≤ p.chips) ∧
    (endHandAward s).smallBlind = s.smallBlind ∧
    (endHandAward s).bigBlind = s.bigBlind ∧
    (endHandAward s).minRaise = s.minRaise ∧
    (endHandAward s).players.length = s.players.length := by
  unfold endHandAward
  simp only []
  set A := s.players.filter (fun p => ¬ containsStr s.foldedPlayers p.name) with hA
  split
  case isTrue h1 =>
    split
    case h_1 j hj =>
      have hjlt := findIdx?_bound s.players _ j hj
      exact ⟨awardPot_chips_sum s j s.pot hjlt, rfl,
        awardPot_chipsNonneg s j s.pot h4 hpot, rfl, rfl, rfl, awardPot_length s j s.pot⟩
    case h_2 hj =>
      exfalso
      have hmem : A.getD 0 defaultPlayer ∈ A := by
        have h0 : 0 < A.length := by omega
        exact playersGetD_mem h0
      have hex : ∃ x ∈ s.players,
          (fun p => decide (p.name = (A.getD 0 defaultPlayer).name)) x = true := by
        refine ⟨A.getD 0 defaultPlayer, (List.mem_filter.mp hmem).1, by simp⟩
      obtain ⟨j, hjs⟩ := findIdx?_some_of_exists s.players _ hex
      rw [hj] at hjs
      exact Option.noConfusion hjs
  case isFalse h1 =>
    split
    case isTrue h0 =>
      split
      case isTrue hpl =>
        exact absurd (List.length_eq_zero.mp hpl) hne
      case isFalse hpl =>
        have hjlt : (s.dealerPosition + 2) % s.players.length < s.players.length :=
          Nat.mod_lt _ (by omega)
        exact ⟨awardPot_chips_sum s _ s.pot hjlt, rfl,
          awardPot_chipsNonneg s _ s.pot h4 hpot, rfl, rfl, rfl, awardPot_length s _ s.pot⟩
    case isFalse h0 =>
      split
      case isTrue hcc =>
        have hlen2 : 2 ≤ A.length := by omega
        have hlpos : (0 : Int) < (A.length : Int) := by
          have : 0 < A.length := by omega
          exact_mod_cast this
        have hrem0 : 0 ≤ s.pot.tmod (A.length : Int) := Int.tmod_nonneg _ hpot
        have hremlt : s.pot.tmod (A.length : Int) < (A.length : Int) :=
          Int.tmod_lt_of_pos s.pot hlpos
        have hper0 : 0 ≤ s.pot.tdiv (A.length : Int) :=
          Int.tdiv_nonneg hpot (by omega)
        have hnames : ∀ pr ∈ A.enum.map (fun ip =>
            (ip.2.name, s.pot.tdiv (A.length : Int) +
              (if (ip.1 : Int) < s.pot.tmod (A.length : Int) then 1 else 0))),
            pr.1 ∈ s.players.map Player.name := by
          intro pr hpr
          obtain ⟨ip, hip, hipe⟩ := List.mem_map.mp hpr
          have h2 : ip.2 ∈ A := by
            have : ip.2 ∈ A.enum.map Prod.snd := List.mem_map_of_mem Prod.snd hip
            rwa [List.enum_map_snd] at this
          have h3 := (List.mem_filter.mp h2).1
          rw [← hipe]
          exact List.mem_map_of_mem Player.name h3
        have hsnn : ∀ pr ∈ A.enum.map (fun ip =>
            (ip.2.name, s.pot.tdiv (A.length : Int) +
              (if (ip.1 : Int) < s.pot.tmod (A.length : Int) then 1 else 0))),
            0 ≤ pr.2 := by
          intro pr hpr
          obtain ⟨ip, hip, hipe⟩ := List.mem_map.mp hpr
          rw [← hipe]
          dsimp only
          split
          · omega
          · omega
        obtain ⟨e1, e2, e3, e4, e5, e6, e7, e8⟩ :=
          splitAwardLoop_props _ s hnames hsnn h4
        refine ⟨?_, e2, e4, e5, e6, e7, e8⟩
        rw [e1]
        have hsnd : ((A.enum.map (fun ip =>
            (ip.2.name, s.pot.tdiv (A.length : Int) +
              (if (ip.1 : Int) < s.pot.tmod (A.length : Int) then 1 else 0)))).map Prod.snd) =
            (List.range A.length).map (fun i : Nat =>
              s.pot.tdiv (A.length : Int) +
                if (i : Int) < s.pot.tmod (A.length : Int) then 1 else 0) := by
          rw [List.map_map]
          rw [show ((Prod.snd ∘ fun ip : Nat × Player =>
              (ip.2.name, s.pot.tdiv (A.length : Int) +
                (if (ip.1 : Int) < s.pot.tmod (A.length : Int) then 1 else 0)))) =
              ((fun i : Nat => s.pot.tdiv (A.length : Int) +
                if (i : Int) < s.pot.tmod (A.length : Int) then 1 else 0) ∘ Prod.fst) from rfl]
          rw [← List.map_map, List.enum_map_fst]
        rw [hsnd, sum_range_shares _ _ _ hrem0]
        have hmin : min (s.pot.tmod (A.length : Int)) (A.length : Int) =
            s.pot.tmod (A.length : Int) := min_eq_left (le_of_lt hremlt)
        rw [hmin]
        have hdm := Int.tdiv_add_tmod s.pot (A.length : Int)
        have : (A.length : Int) * s.pot.tdiv (A.length : Int) =
            s.pot.tdiv (A.length : Int) * (A.length : Int) := by ring
        omega
      case isFalse hcc =>
        have hAne : A ≠ [] := by
          intro hAnil
          exact h0 (by rw [hAnil]; rfl)
        exact showdownAward_props s A hA hAne hcc hpot h4

lemma checkForEliminations_fields (s : GameState) :
    (checkForEliminations s).players = s.players ∧
    (checkForEliminations s).pot = s.pot ∧
    (checkForEliminations s).smallBlind = s.smallBlind ∧
    (checkForEliminations s).bigBlind = s.bigBlind ∧
    (checkForEliminations s).minRaise = s.minRaise := ⟨rfl, rfl, rfl, rfl, rfl⟩

lemma checkForTournamentEnd_fields (s : GameState) :
    (checkForTournamentEnd s).players = s.players ∧
    (checkForTournamentEnd s).pot = s.pot ∧
    (checkForTournamentEnd s).smallBlind = s.smallBlind ∧
    (checkForTournamentEnd s).bigBlind = s.bigBlind ∧
    (checkForTournamentEnd s).minRaise = s.minRaise := by
  unfold checkForTournamentEnd
  split
  · exact ⟨rfl, rfl, rfl, rfl, rfl⟩
  · exact ⟨rfl, rfl, rfl, rfl, rfl⟩

lemma endHandCleanup_decomp (t : GameState) : ∃ s4 : GameState,
    endHandCleanup t = bumpAndClear s4 ∧
    s4.players = t.players ∧ s4.pot = 0 ∧
    s4.smallBlind = t.smallBlind ∧ s4.bigBlind = t.bigBlind ∧
    s4.minRaise = t.minRaise ∧ s4.currentBet = 0 ∧ s4.playerBets = [] := by
  unfold endHandCleanup
  simp only []
  obtain ⟨e1, e2, e3, e4, e5⟩ := checkForEliminations_fields t
  obtain ⟨f1, f2, f3, f4, f5⟩ := checkForTournamentEnd_fields (checkForEliminations t)
  split
  · split
    · refine ⟨_, rfl, ?_, rfl, ?_, ?_, ?_, rfl, rfl⟩
      · dsimp only; rw [f1, e1]
      · dsimp only; rw [f3, e3]
      · dsimp only; rw [f4, e4]
      · dsimp only; rw [f5, e5]
    · refine ⟨_, rfl, ?_, rfl, ?_, ?_, ?_, rfl, rfl⟩
      · dsimp only; rw [f1, e1]
      · dsimp only; rw [f3, e3]
      · dsimp only; rw [f4, e4]
      · dsimp only; rw [f5, e5]
  · refine ⟨_, rfl, ?_, rfl, ?_, ?_, ?_, rfl, rfl⟩
    · dsimp only; rw [f1, e1]
    · dsimp only; rw [f3, e3]
    · dsimp only; rw [f4, e4]
    · dsimp only; rw [f5, e5]

lemma clearCards_chips_map (l : List Player) :
    ((l.map (fun p => { p with cards := ([] : List GoStr) })).map Player.chips) =
      l.map Player.chips := by
  rw [List.map_map]
  rfl

lemma endHandCleanup_chipSum (t : GameState) :
    chipSum (endHandCleanup t) = (t.players.map Player.chips).sum := by
  obtain ⟨s4, heq, hpl, hpot, _, _, _, _⟩ := endHandCleanup_decomp t
  rw [heq]
  unfold bumpAndClear chipSum
  dsimp only
  rw [clearCards_chips_map, hpl, hpot]
  ring

lemma endHandCleanup_length (t : GameState) :
    (endHandCleanup t).players.length = t.players.length := by
  obtain ⟨s4, heq, hpl, _, _, _, _, _⟩ := endHandCleanup_decomp t
  rw [heq]
  unfold bumpAndClear
  dsimp only
  rw [List.length_map, hpl]

lemma endHandCleanup_good (t : GameState) (h4 : ∀ p ∈ t.players, 0 ≤ p.chips)
    (h6 : 0 ≤ t.smallBlind) (h7 : 0 ≤ t.bigBlind) (h8 : 0 ≤ t.minRaise) :
    GoodState (endHandCleanup t) := by
  obtain ⟨s4, heq, hpl, hpot, hsb, hbb, hmr, hcb, hbets⟩ := endHandCleanup_decomp t
  rw [heq]
  unfold bumpAndClear
  refine ⟨?_, ?_, ?_, ?_, ?_, ?_, ?_, ?_⟩
  · dsimp only; rw [hpot]
  · dsimp only; rw [hbets, hpot]; simp [betsSum]
  · dsimp only; rw [hbets]; intro pr hpr; simp at hpr
  · dsimp only
    intro p hp
    obtain ⟨q, hq, hqe⟩ := List.mem_map.mp hp
    rw [← hqe]
    dsimp only
    exact h4 q (hpl ▸ hq)
  · dsimp only; rw [hcb]
  · dsimp only; rw [hsb]; exact h6
  · dsimp only; rw [hbb]; exact h7
  · dsimp only; rw [hmr]; exact h8

lemma endHand_chipSum (s : GameState) (hpot : 0 ≤ s.pot)
    (hne : s.players ≠ []) (h4 : ∀ p ∈ s.players, 0 ≤ p.chips) :
    chipSum (endHand s) = chipSum s := by
  obtain ⟨e1, _, _, _, _, _, _⟩ := endHandAward_props s hpot hne h4
  unfold endHand
  rw [endHandCleanup_chipSum, e1]
  unfold chipSum
  ring

lemma endHand_good (s : GameState) (hpot : 0 ≤ s.pot)
    (hne : s.players ≠ []) (h4 : ∀ p ∈ s.players, 0 ≤ p.chips)
    (h6 : 0 ≤ s.smallBlind) (h7 : 0 ≤ s.bigBlind) (h8 : 0 ≤ s.minRaise) :
    GoodState (endHand s) := by
  obtain ⟨_, _, a3, a4, a5, a6, _⟩ := endHandAward_props s hpot hne h4
  unfold endHand
  exact endHandCleanup_good _ a3 (a4 ▸ h6) (a5 ▸ h7) (a6 ▸ h8)

lemma endHand_length (s : GameState) (hpot : 0 ≤ s.pot)
    (hne : s.players ≠ []) (h4 : ∀ p ∈ s.players, 0 ≤ p.chips) :
    (endHand s).players.length = s.players.length := by
  obtain ⟨_, _, _, _, _, _, a7⟩ := endHandAward_props s hpot hne h4
  unfold endHand
  rw [endHandCleanup_length, a7]

lemma checkForTournamentEnd_pres (s : GameState) (hg : GoodState s) :
    GoodState (checkForTournamentEnd s) ∧
    chipSum (checkForTournamentEnd s) = chipSum s ∧
    (checkForTournamentEnd s).players.length = s.players.length := by
  unfold checkForTournamentEnd
  split
  · exact ⟨hg, rfl, rfl⟩
  · exact ⟨hg, rfl, rfl⟩

lemma resetForRound_props (s : GameState) (tag : String) (hg : GoodState s) :
    GoodState (resetForRound s tag) ∧ chipSum (resetForRound s tag) = chipSum s ∧
    (resetForRound s tag).players.length = s.players.length := by
  obtain ⟨h1, h2, h3, h4, h5, h6, h7, h8⟩ := hg
  refine ⟨⟨h1, ?_, ?_, h4, le_refl 0, h6, h7, h8⟩, rfl, rfl⟩
  · unfold resetForRound betsSum
    dsimp only
    simpa using h1
  · unfold resetForRound
    dsimp only
    intro pr hpr
    simp at hpr

lemma advanceRound_props (s : GameState) (hg : GoodState s) (hne : s.players ≠ []) :
    GoodState (advanceRound s) ∧ chipSum (advanceRound s) = chipSum s ∧
    (advanceRound s).players.length = s.players.length := by
  unfold advanceRound
  simp only []
  split
  · obtain ⟨hg', hc', hn'⟩ := resetForRound_props s roundFlop hg
    split
    · exact ⟨hg', hc', hn'⟩
    · exact ⟨hg', hc', hn'⟩
  · split
    · obtain ⟨hg', hc', hn'⟩ := resetForRound_props s roundTurn hg
      split
      · exact ⟨hg', hc', hn'⟩
      · exact ⟨hg', hc', hn'⟩
    · split
      · obtain ⟨hg', hc', hn'⟩ := resetForRound_props s roundRiver hg
        split
        · exact ⟨hg', hc', hn'⟩
        · exact ⟨hg', hc', hn'⟩
      · split
        · exact ⟨endHand_good s hg.1 hne hg.2.2.2.1 hg.2.2.2.2.2.1 hg.2.2.2.2.2.2.1
              hg.2.2.2.2.2.2.2,
            endHand_chipSum s hg.1 hne hg.2.2.2.1,
            endHand_length s hg.1 hne hg.2.2.2.1⟩
        · exact ⟨hg, rfl, rfl⟩

lemma advanceGameAction_props (s1 : GameState) (d : List Char)
    (hg1 : GoodState s1) (hne1 : s1.players ≠ []) :
    GoodState (advanceGameAction s1 d) ∧
    chipSum (advanceGameAction s1 d) = chipSum s1 ∧
    (advanceGameAction s1 d).players.length = s1.players.length := by
  unfold advanceGameAction
  simp only []
  split
  · exact ⟨hg1, rfl, rfl⟩
  · have hp2 : ∀ s2 : GameState, GoodState s2 → chipSum s2 = chipSum s1 →
        s2.players.length = s1.players.length →
        GoodState (if (((getActivePlayers s2).filter
            (fun p => ¬ containsStr s2.foldedPlayers p.name)).length ≤ 1)
          then endHand s2
          else (if isBettingRoundComplete
              { s2 with currentPlayer := (s2.currentPlayer + 1) % s2.players.length }
            then advanceRound
              { s2 with currentPlayer := (s2.currentPlayer + 1) % s2.players.length }
            else { s2 with currentPlayer := (s2.currentPlayer + 1) % s2.players.length })) ∧
        chipSum (if (((getActivePlayers s2).filter
            (fun p => ¬ containsStr s2.foldedPlayers p.name)).length ≤ 1)
          then endHand s2
          else (if isBettingRoundComplete
              { s2 with currentPlayer := (s2.currentPlayer + 1) % s2.players.length }
            then advanceRound
              { s2 with currentPlayer := (s2.currentPlayer + 1) % s2.players.length }
            else { s2 with currentPlayer := (s2.currentPlayer + 1) % s2.players.length })) =
          chipSum s1 ∧
        (if (((getActivePlayers s2).filter
            (fun p => ¬ containsStr s2.foldedPlayers p.name)).length ≤ 1)
          then endHand s2
          else (if isBettingRoundComplete
              { s2 with currentPlayer := (s2.currentPlayer + 1) % s2.players.length }
            then advanceRound
              { s2 with currentPlayer := (s2.currentPlayer + 1) % s2.players.length }
            else { s2 with currentPlayer :=
              (s2.currentPlayer + 1) % s2.players.length })).players.length =
          s1.players.length := by
      intro s2 hg2 hc2 hn2
      have hne2 : s2.players ≠ [] := by
        intro hnil
        apply hne1
        rw [← List.length_eq_zero, ← hn2, hnil]
        rfl
      split
      · exact ⟨endHand_good s2 hg2.1 hne2 hg2.2.2.2.1 hg2.2.2.2.2.2.1
            hg2.2.2.2.2.2.2.1 hg2.2.2.2.2.2.2.2,
          by rw [endHand_chipSum s2 hg2.1 hne2 hg2.2.2.2.1, hc2],
          by rw [endHand_length s2 hg2.1 hne2 hg2.2.2.2.1, hn2]⟩
      · have hg3 : GoodState { s2 with currentPlayer :=
            (s2.currentPlayer + 1) % s2.players.length } := hg2
        have hne3 : ({ s2 with currentPlayer :=
            (s2.currentPlayer + 1) % s2.players.length } : GameState).players ≠ [] := hne2
        split
        · obtain ⟨ga, gb, gc⟩ := advanceRound_props _ hg3 hne3
          exact ⟨ga, by rw [gb]; exact hc2, by rw [gc]; exact hn2⟩
        · exact ⟨hg3, hc2, hn2⟩
    split
    · exact hp2 _ (processDecision_good s1 d s1.currentPlayer hg1)
        (processDecision_chipSum s1 d s1.currentPlayer)
        (processDecision_length s1 d s1.currentPlayer)
    · exact hp2 s1 hg1 rfl rfl

lemma advanceGame_props (s : GameState) (d : List Char) (nd : List GoStr)
    (hg : GoodState s) (hne : s.players ≠ []) :
    GoodState (advanceGame s d nd) ∧ chipSum (advanceGame s d nd) = chipSum s ∧
    (advanceGame s d nd).players.length = s.players.length := by
  unfold advanceGame
  split
  · exact ⟨hg, rfl, rfl⟩
  · split
    · exact checkForTournamentEnd_pres s hg
    · split
      · obtain ⟨ha, hb, hc⟩ := startHand_pres s nd hg
        have hneS : (startHand s nd).players ≠ [] := by
          intro hnil
          apply hne
          rw [← List.length_eq_zero, ← hc, hnil]
          rfl
        obtain ⟨ga, gb, gc⟩ := advanceGameAction_props _ d ha hneS
        exact ⟨ga, by rw [gb, hb], by rw [gc, hc]⟩
      · exact advanceGameAction_props s d hg hne

lemma initialState_good : GoodState initialState := by
  refine ⟨by norm_num [initialState], ?_, ?_, ?_, by norm_num [initialState],
    by norm_num [initialState], by norm_num [initialState], by norm_num [initialState]⟩
  · norm_num [initialState, betsSum]
  · intro pr hpr
    simp [initialState] at hpr
  · intro p hp
    simp [initialState, initialPlayers] at hp
    rcases hp with hp | hp | hp | hp
    all_goals rw [hp]
    all_goals norm_num

lemma runGame_props (steps : List (List Char × List GoStr)) :
    GoodState (runGame steps) ∧ chipSum (runGame steps) = 80 ∧
    (runGame steps).players.length = 4 := by
  unfold runGame
  refine foldl_preserve _
    (fun s => GoodState s ∧ chipSum s = 80 ∧ s.players.length = 4) _ _ ?_ ?_
  · intro s' b _ hs'
    obtain ⟨hg', hc', hn'⟩ := hs'
    have hne' : s'.players ≠ [] := by
      intro hnil
      rw [hnil] at hn'
      simp at hn'
    obtain ⟨ga, gb, gc⟩ := advanceGame_props s' b.1 b.2 hg' hne'
    exact ⟨ga, by rw [gb, hc'], by rw [gc, hn']⟩
  · exact ⟨initialState_good, by norm_num [chipSum, initialState, initialPlayers], rfl⟩

/-- C1: chip conservation. The sum of all stacks plus the pot is preserved
by `postBlinds`, by every `processDecision` (legal or downgraded), by
`endHand` and by `advanceRound` on any well-formed table state — and hence,
over any sequence of `advanceGame` steps (arbitrary decision strings and
decks across any number of hands), every state reached from the initial
4-seat table keeps `sum(stacks) + pot = 80`, the initial total. `GoodState`
is the invariant (established for all reachable states by the last
conjunct) that the pot covers the posted bets and amounts are non-negative;
`players ≠ []` mirrors the Go panic on an empty seat list. -/
theorem C1_chip_conservation :
    (∀ s : GameState, GoodState s → chipSum (postBlinds s) = chipSum s) ∧
    (∀ (s : GameState) (d : List Char) (i : Nat),
        chipSum (processDecision s d i) = chipSum s) ∧
    (∀ s : GameState, GoodState s → s.players ≠ [] → chipSum (endHand s) = chipSum s) ∧
    (∀ s : GameState, GoodState s → s.players ≠ [] → chipSum (advanceRound s) = chipSum s) ∧
    (∀ steps : List (List Char × List GoStr),
        GoodState (runGame steps) ∧ chipSum (runGame steps) = chipSum initialState ∧
        chipSum (runGame steps) = 80) := by
  refine ⟨?_, ?_, ?_, ?_, ?_⟩
  · intro s hg
    exact (postBlinds_pres s hg).2.1
  · intro s d i
    exact processDecision_chipSum s d i
  · intro s hg hne
    exact endHand_chipSum s hg.1 hne hg.2.2.2.1
  · intro s hg hne
    exact (advanceRound_props s hg hne).2.1
  · intro steps
    obtain ⟨hg, hc, _⟩ := runGame_props steps
    exact ⟨hg, by rw [hc]; rfl, hc⟩

/-- Closed instance of `C1_chip_conservation`: conservation at the initial
state for each operation and for a two-step run. -/
theorem C1_chip_conservation_witness :
    chipSum (postBlinds initialState) = chipSum initialState ∧
    chipSum (processDecision initialState callChars 0) = chipSum initialState ∧
    chipSum (endHand initialState) = chipSum initialState ∧
    chipSum (advanceRound initialState) = chipSum initialState ∧
    chipSum (runGame [(callChars, []), (checkChars, [])]) = 80 :=
  ⟨C1_chip_conservation.1 initialState initialState_good,
   C1_chip_conservation.2.1 initialState callChars 0,
   C1_chip_conservation.2.2.1 initialState initialState_good
     (by simp [initialState, initialPlayers]),
   C1_chip_conservation.2.2.2.1 initialState initialState_good
     (by simp [initialState, initialPlayers]),
   (C1_chip_conservation.2.2.2.2 [(callChars, []), (checkChars, [])]).2.2⟩

def foldChars : List Char := ['f', 'o', 'l', 'd']

lemma processDecision_check_eq (s : GameState) (i : Nat) (h : i < s.players.length) :
    processDecision s checkChars i = applyCheck s i := by
  unfold processDecision
  rw [if_neg (by omega), if_neg (by decide), if_neg (by decide), if_pos (by decide)]

lemma processDecision_call_eq (s : GameState) (i : Nat) (h : i < s.players.length) :
    processDecision s callChars i = applyCall s i := by
  unfold processDecision
  rw [if_neg (by omega), if_neg (by decide), if_pos (by decide)]

lemma processDecision_fold_eq (s : GameState) (i : Nat) (h : i < s.players.length) :
    processDecision s foldChars i = applyFold s i := by
  unfold processDecision
  rw [if_neg (by omega), if_neg (by decide), if_neg (by decide), if_neg (by decide)]

lemma processDecision_raise_eq (s : GameState) (i : Nat) (d : List Char)
    (h : i < s.players.length) (hd : strStartsWith d raiseChars = true) :
    processDecision s d i = applyRaise s i (parseRaiseArg d) := by
  unfold processDecision
  rw [if_neg (by omega), if_pos hd]

/-- C6: `processDecision` downgrades illegal actions along the
raise→call→fold chain. An illegal check (non-zero amount to call) behaves
exactly like a call decision; a call a player cannot cover behaves exactly
like a fold; a fold appends the seat to the folded set; an affordable call
moves the amount to call from the stack to the pot and records the matched
bet; and a parsed raise targets the total bet
`max(requested, CurrentBet + MinRaise)` — executing it when the increment is
fundable and degrading to the call decision (itself call-or-fold) when
not. -/
theorem C6_illegal_action_downgraded (s : GameState) (i : Nat)
    (h : i < s.players.length) :
    (¬ s.currentBet - lookupBet s.playerBets (playersGetD s.players i).name = 0 →
        processDecision s checkChars i = processDecision s callChars i) ∧
    ((playersGetD s.players i).chips <
        s.currentBet - lookupBet s.playerBets (playersGetD s.players i).name →
        processDecision s callChars i = processDecision s foldChars i) ∧
    ((processDecision s foldChars i).foldedPlayers =
        s.foldedPlayers ++ [(playersGetD s.players i).name]) ∧
    (s.currentBet - lookupBet s.playerBets (playersGetD s.players i).name ≤
        (playersGetD s.players i).chips →
        (processDecision s callChars i).pot =
          s.pot + (s.currentBet - lookupBet s.playerBets (playersGetD s.players i).name) ∧
        (processDecision s callChars i).playerBets =
          setAssoc s.playerBets (playersGetD s.players i).name s.currentBet ∧
        (processDecision s callChars i).players =
          s.players.set i { playersGetD s.players i with chips := (playersGetD s.players i).chips - (s.currentBet - lookupBet s.playerBets (playersGetD s.players i).name) }) ∧
    (∀ (d : List Char) (n : Int), strStartsWith d raiseChars = true →
        parseRaiseArg d = some n →
        (max n (s.currentBet + s.minRaise) -
            lookupBet s.playerBets (playersGetD s.players i).name ≤
            (playersGetD s.players i).chips →
          (processDecision s d i).currentBet = max n (s.currentBet + s.minRaise) ∧
          (processDecision s d i).pot =
            s.pot + (max n (s.currentBet + s.minRaise) -
              lookupBet s.playerBets (playersGetD s.players i).name) ∧
          (processDecision s d i).lastRaiseAmount =
            max n (s.currentBet + s.minRaise) - s.currentBet) ∧
        ((playersGetD s.players i).chips <
            max n (s.currentBet + s.minRaise) -
              lookupBet s.playerBets (playersGetD s.players i).name →
          processDecision s d i = processDecision s callChars i)) := by
  refine ⟨?_, ?_, ?_, ?_, ?_⟩
  · intro hatc
    rw [processDecision_check_eq s i h, processDecision_call_eq s i h]
    unfold applyCheck
    simp only []
    rw [if_neg hatc]
    split
    · rfl
    · rename_i hnle
      unfold applyCall
      simp only []
      rw [if_neg hnle]
  · intro hlt
    rw [processDecision_call_eq s i h, processDecision_fold_eq s i h]
    unfold applyCall
    simp only []
    rw [if_neg (by omega)]
  · rw [processDecision_fold_eq s i h]
    rfl
  · intro hle
    rw [processDecision_call_eq s i h]
    unfold applyCall
    simp only []
    rw [if_pos hle]
    exact ⟨rfl, rfl, rfl⟩
  · intro d n hd hparse
    rw [processDecision_raise_eq s i d h hd, hparse]
    constructor
    · intro hfund
      unfold applyRaise
      simp only [Option.getD_some]
      rw [if_pos hfund]
      exact ⟨rfl, rfl, rfl⟩
    · intro hnofund
      unfold applyRaise
      simp only [Option.getD_some]
      rw [if_neg (by omega), processDecision_call_eq s i h]
      split
      · rfl
      · rename_i hncall
        unfold applyCall
        simp only []
        rw [if_neg hncall]

def testC6 : GameState := { initialState with currentBet := 10 }

def raise15Chars : List Char := ['r', 'a', 'i', 's', 'e', ' ', '1', '5']

/-- Closed instance of `C6_illegal_action_downgraded`: at a 4-seat state
with a 10-chip outstanding bet, an illegal check by seat 0 equals a call,
and "raise 15" is bumped to the minimum legal target total bet
`max(15, 10 + 10) = 20`. -/
theorem C6_illegal_action_downgraded_witness :
    processDecision testC6 checkChars 0 = processDecision testC6 callChars 0 ∧
    (processDecision testC6 raise15Chars 0).currentBet = 20 :=
  ⟨(C6_illegal_action_downgraded testC6 0 (by decide)).1 (by decide),
   by
     have hr := (((C6_illegal_action_downgraded testC6 0 (by decide)).2.2.2.2
       raise15Chars 15 (by decide) (by decide)).1 (by decide)).1
     rw [hr]
     decide⟩

/-- A two-seat showdown state whose seats hold compare-equal best hands:
board A♥ A♦ K♥ K♦ Q♥ with hole cards 2♣ 3♣ versus 2♦ 3♦ (both 7-card pools
produce identical scores under the evaluator). -/
def tieStateC3 : GameState :=
  { players :=
      [{ name := "P1", chips := 50,
         cards := [mkCardStr val2 suitClub, mkCardStr val3 suitClub] },
       { name := "P2", chips := 50,
         cards := [mkCardStr val2 suitDiamond, mkCardStr val3 suitDiamond] }],
    deck := [], communityCards :=
      [mkCardStr valA suitHeart, mkCardStr valA suitDiamond, mkCardStr valK suitHeart,
       mkCardStr valK suitDiamond, mkCardStr valQ suitHeart],
    pot := 10, currentPlayer := 0, round := roundRiver, handNumber := 1,
    currentBet := 0, playerBets := [], lastRaiseAmount := 0, minRaise := 10,
    foldedPlayers := [], dealerPosition := 0, smallBlind := 5, bigBlind := 10,
    bettingComplete := false, eliminatedPlayers := [], gameEnded := false }

/-- `tieStateC3` with the two seats exchanged (covers the other possible
outcome of the unstable `sort.Slice`). -/
def tieStateC3Swapped : GameState :=
  { tieStateC3 with players := tieStateC3.players.reverse }

/-- C3: equal-best hands do not split the pot. At a showdown between two
compare-equal 7-card hands the entire pot is credited to a single seat —
whichever tied hand the sort places first — instead of 5 chips each
(stacks 55/55); this holds for both seat orders. -/
theorem C3_equal_best_pot_not_split :
    (NewPokerHand ((playersGetD tieStateC3.players 0).cards ++ tieStateC3.communityCards)).score =
      (NewPokerHand ((playersGetD tieStateC3.players 1).cards ++
        tieStateC3.communityCards)).score ∧
    tieStateC3.communityCards.length = 5 ∧ tieStateC3.foldedPlayers = [] ∧
    tieStateC3.pot = 10 ∧
    ((endHand tieStateC3).players.map Player.chips = [60, 50] ∨
      (endHand tieStateC3).players.map Player.chips = [50, 60]) ∧
    ¬ (endHand tieStateC3).players.map Player.chips = [55, 55] ∧
    ((endHand tieStateC3Swapped).players.map Player.chips = [60, 50] ∨
      (endHand tieStateC3Swapped).players.map Player.chips = [50, 60]) ∧
    ¬ (endHand tieStateC3Swapped).players.map Player.chips = [55, 55] := by
  decide

/-! ## Tournament aggregation (pkg/models tournament.go) for C5 and C8.
`float64` statistics are modelled as exact rationals: all claims below are
equalities between results computed by the same expressions from the same
integer totals, which transfer verbatim to floating point. -/

structure PlayerStats where
  name        : String
  totalGames  : Int
  wins        : Int
  secondPlace : Int
  thirdPlace  : Int
  fourthPlace : Int
  totalChips  : Int
  winRate     : Rat
  avgRank     : Rat
  avgChips    : Rat
deriving DecidableEq

structure PlayerRanking where
  player   : Player
  rank     : Int
  position : String
deriving DecidableEq

/-- models.GameResult, restricted to the fields the aggregation functions
read (`AllPlayers` in `calculatePlayerRankings`, `PlayerRankings` in
`AddGameResult`; the identification and timing fields are opaque data). -/
structure GameResult where
  allPlayers     : List Player
  playerRankings : List PlayerRanking
deriving DecidableEq

structure TournamentResult where
  totalGames     : Int
  completedGames : Int
  gameResults    : List GameResult
  playerStats    : List (String × PlayerStats)
  overallWinner  : String
deriving DecidableEq

/-- The zero-initialised stats entry created on first sight of a player. -/
def initStats (n : String) : PlayerStats :=
  { name := n, totalGames := 0, wins := 0, secondPlace := 0, thirdPlace := 0,
    fourthPlace := 0, totalChips := 0, winRate := 0, avgRank := 0, avgChips := 0 }

def lookupStats : List (String × PlayerStats) → String → Option PlayerStats
  | [], _ => none
  | (k, v) :: t, n => if k = n then some v else lookupStats t n

/-- A Go map write; insertion order = first-seen order. -/
def setStats : List (String × PlayerStats) → String → PlayerStats →
    List (String × PlayerStats)
  | [], n, v => [(n, v)]
  | (k, w) :: t, n, v => if k = n then (k, v) :: t else (k, w) :: setStats t n v

/-- One ranking entry applied to a stats record: bump the totals and the
placement counter, then recompute the derived averages from the running
totals (tournament.go, body of the `AddGameResult` loop). -/
def updateStats (st : PlayerStats) (rank : Int) (chips : Int) : PlayerStats :=
  let st := { st with totalGames := st.totalGames + 1, totalChips := st.totalChips + chips }
  let st :=
    if rank = 1 then { st with wins := st.wins + 1 }
    else if rank = 2 then { st with secondPlace := st.secondPlace + 1 }
    else if rank = 3 then { st with thirdPlace := st.thirdPlace + 1 }
    else if rank = 4 then { st with fourthPlace := st.fourthPlace + 1 }
    else st
  { st with
    winRate := (st.wins : Rat) / (st.totalGames : Rat) * 100,
    avgChips := (st.totalChips : Rat) / (st.totalGames : Rat),
    avgRank := ((st.wins : Rat) * 1 + (st.secondPlace : Rat) * 2 +
      (st.thirdPlace : Rat) * 3 + (st.fourthPlace : Rat) * 4) / (st.totalGames : Rat) }

def statStep (stats : List (String × PlayerStats)) (rk : PlayerRanking) :
    List (String × PlayerStats) :=
  let n := rk.player.name
  setStats stats n (updateStats ((lookupStats stats n).getD (initStats n)) rk.rank rk.player.chips)

/-- tournament.go `updateOverallWinner`: scan the stats map in the (in Go,
unspecified) iteration order `ord`, keeping the first strictly larger win
count; `prev` is the previous `OverallWinner` value. -/
def updateOverallWinner (stats : List (String × PlayerStats)) (ord : List String)
    (prev : String) : String :=
  (ord.foldl (fun (acc : Int × String) k =>
      let st := (lookupStats stats k).getD (initStats k)
      if acc.1 < st.wins then (st.wins, st.name) else acc)
    (0, prev)).2

/-- tournament.go `AddGameResult`, with the stats-map iteration order for
the completion-time `updateOverallWinner` call passed explicitly. -/
def addGameResult (tr : TournamentResult) (r : GameResult) (ord : List String) :
    TournamentResult :=
  let tr1 := { tr with gameResults := tr.gameResults ++ [r],
                       completedGames := tr.completedGames + 1,
                       playerStats := r.playerRankings.foldl statStep tr.playerStats }
  if tr1.totalGames ≤ tr1.completedGames then
    { tr1 with overallWinner := updateOverallWinner tr1.playerStats ord tr1.overallWinner }
  else tr1

/-- tournament.go `NewTournamentResult`. -/
def newTournamentResult (totalGames : Int) : TournamentResult :=
  { totalGames := totalGames, completedGames := 0, gameResults := [],
    playerStats := [], overallWinner := "" }

def addAllResults (totalGames : Int) (rs : List GameResult) (ord : List String) :
    TournamentResult :=
  rs.foldl (fun tr r => addGameResult tr r ord) (newTournamentResult totalGames)

def nameA : String := "A"
def nameB : String := "B"

def resultC5One : GameResult :=
  { allPlayers := [],
    playerRankings :=
      [{ player := { name := nameA, chips := 30, cards := [] }, rank := 1,
         position := "Winner" },
       { player := { name := nameB, chips := 10, cards := [] }, rank := 2,
         position := "Runner-up" }] }

def resultC5Two : GameResult :=
  { allPlayers := [],
    playerRankings :=
      [{ player := { name := nameA, chips := 5, cards := [] }, rank := 2,
         position := "Runner-up" },
       { player := { name := nameB, chips := 40, cards := [] }, rank := 1,
         position := "Winner" }] }

/-- C5 counterexample: when two players tie on first-place finishes, the
overall winner follows the unspecified stats-map iteration order, not
first-seen order. Feeding two results in which A (seen first) and B win one
game each, a legal iteration order [B, A] of the key set makes B the
overall winner, although first-seen tie-breaking would name A. -/
theorem C5_tie_winner_follows_map_order :
    (addAllResults 2 [resultC5One, resultC5Two] [nameB, nameA]).overallWinner = nameB ∧
    ((lookupStats (addAllResults 2 [resultC5One, resultC5Two]
        [nameB, nameA]).playerStats nameA).getD (initStats nameA)).wins = 1 ∧
    ((lookupStats (addAllResults 2 [resultC5One, resultC5Two]
        [nameB, nameA]).playerStats nameB).getD (initStats nameB)).wins = 1 ∧
    List.Perm [nameB, nameA]
      ((addAllResults 2 [resultC5One, resultC5Two] [nameB, nameA]).playerStats.map
        Prod.fst) ∧
    ((addAllResults 2 [resultC5One, resultC5Two] [nameB, nameA]).playerStats.map
        Prod.fst) = [nameA, nameB] ∧
    ¬ nameB = nameA := by
  decide

/-- The statistics a player accumulates from the multiset of their ranking
entries: every field is a count or sum over the entries, the averages are
recomputed from those totals. -/
def statsOfEntries (n : String) (entries : List PlayerRanking) : PlayerStats :=
  let tg : Int := entries.length
  let w : Int := entries.countP (fun rk => rk.rank = 1)
  let s2 : Int := entries.countP (fun rk => rk.rank = 2)
  let s3 : Int := entries.countP (fun rk => rk.rank = 3)
  let s4 : Int := entries.countP (fun rk => rk.rank = 4)
  let tc : Int := (entries.map (fun rk => rk.player.chips)).sum
  { name := n, totalGames := tg, wins := w, secondPlace := s2, thirdPlace := s3,
    fourthPlace := s4, totalChips := tc,
    winRate := (w : Rat) / (tg : Rat) * 100,
    avgRank := ((w : Rat) * 1 + (s2 : Rat) * 2 + (s3 : Rat) * 3 + (s4 : Rat) * 4) / (tg : Rat),
    avgChips := (tc : Rat) / (tg : Rat) }

lemma statsOfEntries_nil (n : String) : statsOfEntries n [] = initStats n := by
  simp [statsOfEntries, initStats]

lemma updateStats_snoc (n : String) (pre : List PlayerRanking) (e : PlayerRanking) :
    updateStats (statsOfEntries n pre) e.rank e.player.chips =
      statsOfEntries n (pre ++ [e]) := by
  unfold updateStats statsOfEntries
  simp only [List.countP_append, List.length_append, List.map_append, List.sum_append,
    List.countP_cons, List.countP_nil, List.map_cons, List.map_nil, List.sum_cons,
    List.sum_nil, List.length_cons, List.length_nil]
  by_cases h1 : e.rank = 1
  · simp [h1]
  · by_cases h2 : e.rank = 2
    · simp [h1, h2]
    · by_cases h3 : e.rank = 3
      · simp [h1, h2, h3]
      · by_cases h4 : e.rank = 4
        · simp [h1, h2, h3, h4]
        · simp [h1, h2, h3, h4]

/-- The per-player view of one `statStep`: how the looked-up entry of one
player evolves. -/
def optStep (n : String) (acc : Option PlayerStats) (rk : PlayerRanking) :
    Option PlayerStats :=
  some (updateStats (acc.getD (initStats n)) rk.rank rk.player.chips)

lemma lookupStats_setStats (st : List (String × PlayerStats)) (k : String)
    (v : PlayerStats) (n : String) :
    lookupStats (setStats st k v) n = if k = n then some v else lookupStats st n := by
  induction st with
  | nil => simp [setStats, lookupStats]
  | cons kw t ih =>
    obtain ⟨k', w⟩ := kw
    unfold setStats
    by_cases hk : k' = k
    · subst hk
      rw [if_pos rfl]
      unfold lookupStats
      by_cases hn : k' = n
      · simp [hn]
      · simp [hn]
    · rw [if_neg hk]
      unfold lookupStats
      by_cases hn : k' = n
      · subst hn
        have hkn : ¬ k = k' := fun hh => hk hh.symm
        simp [hkn]
      · simp [hn, ih]

lemma lookup_statStep_fold (entries : List PlayerRanking) :
    ∀ (stats : List (String × PlayerStats)) (n : String),
    lookupStats (entries.foldl statStep stats) n =
      (entries.filter (fun rk => rk.player.name = n)).foldl (optStep n)
        (lookupStats stats n) := by
  induction entries with
  | nil => intro stats n; rfl
  | cons e rest ih =>
    intro stats n
    rw [List.foldl_cons, ih]
    by_cases he : e.player.name = n
    · have hfilter : (e :: rest).filter (fun rk => rk.player.name = n) =
          e :: rest.filter (fun rk => rk.player.name = n) := by
        simp [List.filter_cons, he]
      rw [hfilter, List.foldl_cons]
      congr 1
      unfold statStep optStep
      rw [lookupStats_setStats, if_pos he, he]
    · have hfilter : (e :: rest).filter (fun rk => rk.player.name = n) =
          rest.filter (fun rk => rk.player.name = n) := by
        simp [List.filter_cons, he]
      rw [hfilter]
      congr 1
      unfold statStep
      rw [lookupStats_setStats, if_neg he]

lemma optStep_fold_snoc (n : String) (entries : List PlayerRanking) :
    ∀ (pre : List PlayerRanking),
    entries.foldl (optStep n) (some (statsOfEntries n pre)) =
      some (statsOfEntries n (pre ++ entries)) := by
  induction entries with
  | nil => intro pre; simp
  | cons e rest ih =>
    intro pre
    rw [List.foldl_cons]
    have hstep : optStep n (some (statsOfEntries n pre)) e =
        some (statsOfEntries n (pre ++ [e])) := by
      unfold optStep
      rw [Option.getD_some, updateStats_snoc]
    rw [hstep, ih (pre ++ [e])]
    simp

lemma optStep_fold_none (n : String) (entries : List PlayerRanking) :
    entries.foldl (optStep n) none =
      if entries = [] then none else some (statsOfEntries n entries) := by
  cases entries with
  | nil => rfl
  | cons e rest =>
    rw [List.foldl_cons]
    have hstep : optStep n none e = some (statsOfEntries n [e]) := by
      unfold optStep
      rw [Option.getD_none, ← statsOfEntries_nil n, updateStats_snoc]
      simp
    rw [hstep, optStep_fold_snoc n rest [e]]
    simp

lemma addGameResult_stats (tr : TournamentResult) (r : GameResult) (ord : List String) :
    (addGameResult tr r ord).playerStats = r.playerRankings.foldl statStep tr.playerStats := by
  unfold addGameResult
  simp only []
  split
  · rfl
  · rfl

lemma addAll_stats_fold (ord : List String) (rs : List GameResult) :
    ∀ tr : TournamentResult,
    (rs.foldl (fun tr r => addGameResult tr r ord) tr).playerStats =
      rs.foldl (fun st r => r.playerRankings.foldl statStep st) tr.playerStats := by
  induction rs with
  | nil => intro tr; rfl
  | cons r rest ih =>
    intro tr
    rw [List.foldl_cons, List.foldl_cons, ih, addGameResult_stats]

lemma stats_fold_flatten (rs : List GameResult) :
    ∀ st : List (String × PlayerStats),
    rs.foldl (fun st r => r.playerRankings.foldl statStep st) st =
      ((rs.map GameResult.playerRankings).flatten).foldl statStep st := by
  induction rs with
  | nil => intro st; rfl
  | cons r rest ih =>
    intro st
    rw [List.foldl_cons, ih, List.map_cons, List.flatten_cons, List.foldl_append]

/-- The ranking entries of player `n` across a tournament, in arrival order. -/
def entriesFor (n : String) (rs : List GameResult) : List PlayerRanking :=
  ((rs.map GameResult.playerRankings).flatten).filter (fun rk => rk.player.name = n)

lemma lookup_addAllResults (totalGames : Int) (rs : List GameResult)
    (ord : List String) (n : String) :
    lookupStats (addAllResults totalGames rs ord).playerStats n =
      (if entriesFor n rs = [] then none
       else some (statsOfEntries n (entriesFor n rs))) := by
  unfold addAllResults entriesFor
  rw [addAll_stats_fold, stats_fold_flatten, lookup_statStep_fold]
  have hbase : lookupStats (newTournamentResult totalGames).playerStats n = none := rfl
  rw [hbase, optStep_fold_none]

lemma statsOfEntries_perm (n : String) {e1 e2 : List PlayerRanking}
    (h : e1.Perm e2) : statsOfEntries n e1 = statsOfEntries n e2 := by
  unfold statsOfEntries
  rw [h.length_eq, h.countP_eq, (h.map (fun rk => rk.player.chips)).sum_eq]
  have hc2 := h.countP_eq (fun rk => decide (rk.rank = 2))
  have hc3 := h.countP_eq (fun rk => decide (rk.rank = 3))
  have hc4 := h.countP_eq (fun rk => decide (rk.rank = 4))
  rw [hc2, hc3, hc4]

def winnerStep (stats : List (String × PlayerStats)) (acc : Int × String)
    (k : String) : Int × String :=
  let st := (lookupStats stats k).getD (initStats k)
  if acc.1 < st.wins then (st.wins, st.name) else acc

lemma updateOverallWinner_eq_fold (stats : List (String × PlayerStats))
    (ord : List String) (prev : String) :
    updateOverallWinner stats ord prev = (ord.foldl (winnerStep stats) (0, prev)).2 := rfl

lemma winnerFold_keep (stats : List (String × PlayerStats)) :
    ∀ (l : List String) (acc : Int × String),
    (∀ k ∈ l, ¬ acc.1 < ((lookupStats stats k).getD (initStats k)).wins) →
    l.foldl (winnerStep stats) acc = acc := by
  intro l
  induction l with
  | nil => intro acc _; rfl
  | cons k t ih =>
    intro acc hall
    rw [List.foldl_cons]
    have hk : winnerStep stats acc k = acc := by
      unfold winnerStep
      simp only []
      rw [if_neg (hall k (List.mem_cons_self k t))]
    rw [hk]
    exact ih acc (fun k' hk' => hall k' (List.mem_cons_of_mem k hk'))

lemma winnerFold_hit (stats : List (String × PlayerStats)) (p : String)
    (hname : ((lookupStats stats p).getD (initStats p)).name = p) :
    ∀ (l : List String) (acc : Int × String),
    p ∈ l →
    (∀ k ∈ l, k ≠ p → ((lookupStats stats k).getD (initStats k)).wins <
        ((lookupStats stats p).getD (initStats p)).wins) →
    acc.1 < ((lookupStats stats p).getD (initStats p)).wins →
    l.foldl (winnerStep stats) acc =
      (((lookupStats stats p).getD (initStats p)).wins, p) := by
  intro l
  induction l with
  | nil => intro acc hmem; exact absurd hmem (List.not_mem_nil p)
  | cons k t ih =>
    intro acc hmem hmax hacc
    rw [List.foldl_cons]
    by_cases hk : k = p
    · subst hk
      have hstep : winnerStep stats acc k =
          (((lookupStats stats k).getD (initStats k)).wins, k) := by
        unfold winnerStep
        simp only []
        rw [if_pos hacc, hname]
      rw [hstep]
      apply winnerFold_keep
      intro k' hk'
      by_cases hkp : k' = k
      · subst hkp; simp
      · have := hmax k' (List.mem_cons_of_mem k hk') hkp
        omega
    · have hmemt : p ∈ t := by
        rcases List.mem_cons.mp hmem with h | h
        · exact absurd h.symm hk
        · exact h
      have hlt := hmax k (List.mem_cons_self k t) hk
      have hacc' : (winnerStep stats acc k).1 <
          ((lookupStats stats p).getD (initStats p)).wins := by
        unfold winnerStep
        simp only []
        split
        · exact hlt
        · exact hacc
      exact ih (winnerStep stats acc k) hmemt
        (fun k' hk' => hmax k' (List.mem_cons_of_mem k hk')) hacc'

/-- C5: amended order-invariance of tournament aggregation. (a) The final
per-player statistics are invariant under permuting the sequence of game
results fed to `addGameResult` (and independent of the map iteration orders
used for the winner updates). (b) The overall winner is also
order-invariant whenever one player has strictly more first-place finishes
than every other key of the stats map and at least one win; only the
tie-breaking among equal win counts follows the unspecified map iteration
order (see the counterexample), rather than first-seen order as claimed. -/
theorem C5_aggregation_order_invariant_amended :
    (∀ (tg : Int) (rs1 rs2 : List GameResult) (o1 o2 : List String) (n : String),
      rs1.Perm rs2 →
      lookupStats (addAllResults tg rs1 o1).playerStats n =
        lookupStats (addAllResults tg rs2 o2).playerStats n) ∧
    (∀ (stats : List (String × PlayerStats)) (ord : List String) (prev p : String),
      p ∈ ord →
      0 < ((lookupStats stats p).getD (initStats p)).wins →
      ((lookupStats stats p).getD (initStats p)).name = p →
      (∀ k ∈ ord, k ≠ p →
        ((lookupStats stats k).getD (initStats k)).wins <
          ((lookupStats stats p).getD (initStats p)).wins) →
      updateOverallWinner stats ord prev = p) := by
  constructor
  · intro tg rs1 rs2 o1 o2 n hperm12
    rw [lookup_addAllResults, lookup_addAllResults]
    have hperm : (entriesFor n rs1).Perm (entriesFor n rs2) := by
      unfold entriesFor
      exact ((hperm12.map GameResult.playerRankings).flatten).filter _
    by_cases h1 : entriesFor n rs1 = []
    · have h2 : entriesFor n rs2 = [] := by
        rw [h1] at hperm
        exact hperm.symm.eq_nil
      rw [if_pos h1, if_pos h2]
    · have h2 : ¬ entriesFor n rs2 = [] := by
        intro hh
        rw [hh] at hperm
        exact h1 hperm.eq_nil
      rw [if_neg h1, if_neg h2, statsOfEntries_perm n hperm]
  · intro stats ord prev p hmem hpos hname hmax
    rw [updateOverallWinner_eq_fold,
      winnerFold_hit stats p hname ord (0, prev) hmem hmax hpos]

/-- Closed instance of the amended C5 theorem: swapping the two game
results leaves player A's looked-up stats unchanged, and a stats map in
which A uniquely leads on wins names A the overall winner for an
arbitrary iteration order. -/
theorem C5_aggregation_order_invariant_amended_witness :
    lookupStats (addAllResults 2 [resultC5One, resultC5Two] [nameA, nameB]).playerStats
        nameA =
      lookupStats (addAllResults 2 [resultC5Two, resultC5One] [nameB, nameA]).playerStats
        nameA ∧
    updateOverallWinner [(nameA, { initStats nameA with wins := 1 })] [nameB, nameA]
        "" = nameA :=
  ⟨C5_aggregation_order_invariant_amended.1 2 [resultC5One, resultC5Two]
      [resultC5Two, resultC5One] [nameA, nameB] [nameB, nameA] nameA (by decide),
   C5_aggregation_order_invariant_amended.2
      [(nameA, { initStats nameA with wins := 1 })] [nameB, nameA] "" nameA
      (by decide) (by decide) (by decide) (by decide)⟩

/-- One execution of the inner loop of the bubble sort in
`calculatePlayerRankings` (tournament/manager.go): `k` compare-swap steps
from the head, swapping whenever the left key is strictly smaller
(`players[j].Chips < players[j+1].Chips`). -/
def passK {α : Type} (key : α → Int) : List α → Nat → List α
  | l, 0 => l
  | l, k + 1 =>
    match l with
    | [] => []
    | [a] => [a]
    | a :: b :: t =>
      if key a < key b then b :: passK key (a :: t) k else a :: passK key (b :: t) k

/-- The outer loop: iteration `i` of the Go loop performs `n-1-i`
comparisons, so the pass budgets count down `n-1, n-2, …, 1`. -/
def bubbleAuxK {α : Type} (key : α → Int) : List α → Nat → List α
  | l, 0 => l
  | l, k + 1 => bubbleAuxK key (passK key l (k + 1)) k

def bubbleSortK {α : Type} (key : α → Int) (l : List α) : List α :=
  bubbleAuxK key l (l.length - 1)

def playerKey (p : Player) : Int := p.chips

/-- The same chip key read through a (player, original seat index) pair. -/
def pkey (pr : Player × Nat) : Int := pr.1.chips

def positionsList : List String := ["Winner", "Runner-up", "3rd Place", "4th Place"]

/-- The ranking-construction loop of `calculatePlayerRankings`: element `i`
of the sorted list gets rank `i+1` and the `i`-th position label (default
"4th Place"). -/
def mkRankings : List Player → Nat → List PlayerRanking
  | [], _ => []
  | p :: t, i =>
    { player := p, rank := (i : Int) + 1,
      position := positionsList.getD i "4th Place" } :: mkRankings t (i + 1)

/-- tournament/manager.go `calculatePlayerRankings`: bubble sort a copy of
`AllPlayers` by chips (descending), then assign ranks and labels in order. -/
def calculatePlayerRankings (r : GameResult) : List PlayerRanking :=
  mkRankings (bubbleSortK playerKey r.allPlayers) 0

/-- Tag each player with its original seat index (starting at `i`). -/
def withIdx : List Player → Nat → List (Player × Nat)
  | [], _ => []
  | a :: t, i => (a, i) :: withIdx t (i + 1)

lemma passK_perm {α : Type} (key : α → Int) :
    ∀ (k : Nat) (l : List α), (passK key l k).Perm l := by
  intro k
  induction k with
  | zero =>
    intro l
    exact List.Perm.refl l
  | succ k ih =>
    intro l
    cases l with
    | nil => exact List.Perm.refl []
    | cons a t =>
      cases t with
      | nil => exact List.Perm.refl [a]
      | cons b t' =>
        simp only [passK]
        split_ifs with h
        · exact ((ih (a :: t')).cons b).trans (List.Perm.swap a b t')
        · exact (ih (b :: t')).cons a

lemma bubbleAuxK_perm {α : Type} (key : α → Int) :
    ∀ (k : Nat) (l : List α), (bubbleAuxK key l k).Perm l := by
  intro k
  induction k with
  | zero => intro l; exact List.Perm.refl l
  | succ k ih =>
    intro l
    exact (ih (passK key l (k + 1))).trans (passK_perm key (k + 1) l)

lemma bubbleSortK_perm {α : Type} (key : α → Int) (l : List α) :
    (bubbleSortK key l).Perm l :=
  bubbleAuxK_perm key (l.length - 1) l

lemma passK_append {α : Type} (key : α → Int) :
    ∀ (k : Nat) (front : List α), k + 1 ≤ front.length →
    ∀ back : List α, passK key (front ++ back) k = passK key front k ++ back := by
  intro k
  induction k with
  | zero => intro front _ back; rfl
  | succ k ih =>
    intro front hlen back
    cases front with
    | nil => simp at hlen
    | cons a t =>
      cases t with
      | nil =>
        simp only [List.length_cons, List.length_nil] at hlen
        omega
      | cons b t' =>
        simp only [List.cons_append, passK]
        have hlen' : k + 1 ≤ (a :: t').length := by
          simp only [List.length_cons] at hlen ⊢
          omega
        have hlen'' : k + 1 ≤ (b :: t').length := by
          simp only [List.length_cons] at hlen ⊢
          omega
        split_ifs with h
        · have h1 := ih (a :: t') hlen' back
          simp only [List.cons_append] at h1
          rw [h1, List.cons_append]
        · have h1 := ih (b :: t') hlen'' back
          simp only [List.cons_append] at h1
          rw [h1, List.cons_append]

lemma passK_last_min {α : Type} (key : α → Int) :
    ∀ (k : Nat) (l : List α), l ≠ [] → l.length - 1 ≤ k →
    ∃ l' m, passK key l k = l' ++ [m] ∧ (∀ x ∈ l', key m ≤ key x) ∧
      l'.length + 1 = l.length := by
  intro k
  induction k with
  | zero =>
    intro l hne hlen
    cases l with
    | nil => exact absurd rfl hne
    | cons a t =>
      cases t with
      | nil => exact ⟨[], a, rfl, by simp, rfl⟩
      | cons b t' =>
        simp only [List.length_cons] at hlen
        omega
  | succ k ih =>
    intro l hne hlen
    cases l with
    | nil => exact absurd rfl hne
    | cons a t =>
      cases t with
      | nil => exact ⟨[], a, rfl, by simp, rfl⟩
      | cons b t' =>
        simp only [List.length_cons] at hlen
        simp only [passK]
        split_ifs with h
        · obtain ⟨l', m, heq, hmin, hlen'⟩ :=
            ih (a :: t') (by simp) (by simp only [List.length_cons]; omega)
          have hperm : (l' ++ [m]).Perm (a :: t') := heq ▸ passK_perm key k (a :: t')
          refine ⟨b :: l', m, ?_, ?_, ?_⟩
          · rw [heq, List.cons_append]
          · intro x hx
            rcases List.mem_cons.mp hx with rfl | hx'
            · have ha : a ∈ l' ++ [m] := hperm.symm.subset (List.mem_cons_self a t')
              rcases List.mem_append.mp ha with ha' | ha'
              · exact le_trans (hmin a ha') (le_of_lt h)
              · have : a = m := List.mem_singleton.mp ha'
                rw [← this]
                exact le_of_lt h
            · exact hmin x hx'
          · simp only [List.length_cons] at hlen' ⊢
            omega
        · obtain ⟨l', m, heq, hmin, hlen'⟩ :=
            ih (b :: t') (by simp) (by simp only [List.length_cons]; omega)
          have hperm : (l' ++ [m]).Perm (b :: t') := heq ▸ passK_perm key k (b :: t')
          have hba : key b ≤ key a := le_of_not_lt h
          refine ⟨a :: l', m, ?_, ?_, ?_⟩
          · rw [heq, List.cons_append]
          · intro x hx
            rcases List.mem_cons.mp hx with rfl | hx'
            · have hb : b ∈ l' ++ [m] := hperm.symm.subset (List.mem_cons_self b t')
              rcases List.mem_append.mp hb with hb' | hb'
              · exact le_trans (hmin b hb') hba
              · have : b = m := List.mem_singleton.mp hb'
                rw [← this]
                exact hba
            · exact hmin x hx'
          · simp only [List.length_cons] at hlen' ⊢
            omega

lemma bubbleAuxK_sorted_go {α : Type} (key : α → Int) :
    ∀ (k : Nat) (front back : List α),
    front.length = k + 1 →
    List.Pairwise (fun a b => key b ≤ key a) back →
    (∀ x ∈ front, ∀ y ∈ back, key y ≤ key x) →
    List.Pairwise (fun a b => key b ≤ key a) (bubbleAuxK key (front ++ back) k) := by
  intro k
  induction k with
  | zero =>
    intro front back hflen hback hlow
    cases front with
    | nil => simp at hflen
    | cons x t =>
      cases t with
      | nil =>
        simp only [List.cons_append, List.nil_append]
        exact List.pairwise_cons.mpr
          ⟨fun y hy => hlow x (List.mem_cons_self x []) y hy, hback⟩
      | cons y t' => simp only [List.length_cons] at hflen; omega
  | succ k ih =>
    intro front back hflen hback hlow
    show List.Pairwise (fun a b => key b ≤ key a)
      (bubbleAuxK key (passK key (front ++ back) (k + 1)) k)
    rw [passK_append key (k + 1) front (by omega) back]
    obtain ⟨l', m, heq, hmin, hlen'⟩ :=
      passK_last_min key (k + 1) front (by intro hh; rw [hh] at hflen; simp at hflen)
        (by omega)
    have hperm : (l' ++ [m]).Perm front := heq ▸ passK_perm key (k + 1) front
    have hmem : m ∈ front := hperm.subset (List.mem_append_right l' (List.mem_singleton.mpr rfl))
    rw [heq, List.append_assoc, List.singleton_append]
    apply ih l' (m :: back)
    · omega
    · exact List.pairwise_cons.mpr ⟨fun y hy => hlow m hmem y hy, hback⟩
    · intro x hx y hy
      have hxf : x ∈ front := hperm.subset (List.mem_append_left [m] hx)
      rcases List.mem_cons.mp hy with rfl | hy'
      · exact hmin x hx
      · exact hlow x hxf y hy'

lemma bubbleSortK_pairwise {α : Type} (key : α → Int) (l : List α) :
    List.Pairwise (fun a b => key b ≤ key a) (bubbleSortK key l) := by
  cases l with
  | nil => exact List.Pairwise.nil
  | cons a t =>
    have h := bubbleAuxK_sorted_go key t.length (a :: t) []
      (by simp) List.Pairwise.nil (by simp)
    simpa [bubbleSortK] using h

lemma passK_map_fst :
    ∀ (k : Nat) (l : List (Player × Nat)),
    (passK pkey l k).map Prod.fst = passK playerKey (l.map Prod.fst) k := by
  intro k
  induction k with
  | zero => intro l; rfl
  | succ k ih =>
    intro l
    cases l with
    | nil => rfl
    | cons a t =>
      cases t with
      | nil => rfl
      | cons b t' =>
        simp only [List.map_cons, passK, pkey, playerKey]
        split_ifs with h
        · rw [List.map_cons]
          have h1 := ih (a :: t')
          simp only [List.map_cons] at h1
          rw [h1]
        · rw [List.map_cons]
          have h1 := ih (b :: t')
          simp only [List.map_cons] at h1
          rw [h1]

lemma bubbleAuxK_map_fst :
    ∀ (k : Nat) (l : List (Player × Nat)),
    (bubbleAuxK pkey l k).map Prod.fst = bubbleAuxK playerKey (l.map Prod.fst) k := by
  intro k
  induction k with
  | zero => intro l; rfl
  | succ k ih =>
    intro l
    show (bubbleAuxK pkey (passK pkey l (k + 1)) k).map Prod.fst =
      bubbleAuxK playerKey (passK playerKey (l.map Prod.fst) (k + 1)) k
    rw [ih (passK pkey l (k + 1)), passK_map_fst]

lemma withIdx_map_fst : ∀ (l : List Player) (i : Nat), (withIdx l i).map Prod.fst = l := by
  intro l
  induction l with
  | nil => intro i; rfl
  | cons a t ih => intro i; simp [withIdx, ih]

lemma withIdx_length : ∀ (l : List Player) (i : Nat), (withIdx l i).length = l.length := by
  intro l
  induction l with
  | nil => intro i; rfl
  | cons a t ih => intro i; simp [withIdx, ih]

lemma withIdx_snd_ge :
    ∀ (l : List Player) (i : Nat) (y : Player × Nat), y ∈ withIdx l i → i ≤ y.2 := by
  intro l
  induction l with
  | nil => intro i y hy; simp [withIdx] at hy
  | cons a t ih =>
    intro i y hy
    rcases List.mem_cons.mp hy with rfl | hy'
    · exact le_refl i
    · exact le_trans (Nat.le_succ i) (ih (i + 1) y hy')

lemma withIdx_pairwise_idx :
    ∀ (l : List Player) (i : Nat),
    List.Pairwise (fun a b : Player × Nat => a.2 < b.2) (withIdx l i) := by
  intro l
  induction l with
  | nil => intro i; exact List.Pairwise.nil
  | cons a t ih =>
    intro i
    refine List.pairwise_cons.mpr ⟨?_, ih (i + 1)⟩
    intro y hy
    have := withIdx_snd_ge t (i + 1) y hy
    omega

lemma passK_stab :
    ∀ (k : Nat) (l : List (Player × Nat)),
    List.Pairwise (fun a b => pkey a = pkey b → a.2 < b.2) l →
    List.Pairwise (fun a b => pkey a = pkey b → a.2 < b.2) (passK pkey l k) := by
  intro k
  induction k with
  | zero => intro l h; exact h
  | succ k ih =>
    intro l h
    cases l with
    | nil => exact List.Pairwise.nil
    | cons a t =>
      cases t with
      | nil => exact h
      | cons b t' =>
        rcases List.pairwise_cons.mp h with ⟨hab, h2⟩
        rcases List.pairwise_cons.mp h2 with ⟨hbt, ht⟩
        simp only [passK]
        split_ifs with hcond
        · refine List.pairwise_cons.mpr ⟨?_, ?_⟩
          · intro y hy
            have hy' : y ∈ a :: t' := (passK_perm pkey k (a :: t')).subset hy
            rcases List.mem_cons.mp hy' with rfl | hy''
            · intro heq
              exact absurd hcond (not_lt.mpr (le_of_eq heq))
            · exact hbt y hy''
          · exact ih (a :: t') (List.pairwise_cons.mpr
              ⟨fun y hy => hab y (List.mem_cons_of_mem b hy), ht⟩)
        · refine List.pairwise_cons.mpr ⟨?_, ?_⟩
          · intro y hy
            have hy' : y ∈ b :: t' := (passK_perm pkey k (b :: t')).subset hy
            rcases List.mem_cons.mp hy' with heq | hy''
            · rw [heq]
              exact hab b (List.mem_cons_self b t')
            · exact hab y (List.mem_cons_of_mem b hy'')
          · exact ih (b :: t') (List.pairwise_cons.mpr ⟨hbt, ht⟩)

lemma bubbleAuxK_stab :
    ∀ (k : Nat) (l : List (Player × Nat)),
    List.Pairwise (fun a b => pkey a = pkey b → a.2 < b.2) l →
    List.Pairwise (fun a b => pkey a = pkey b → a.2 < b.2) (bubbleAuxK pkey l k) := by
  intro k
  induction k with
  | zero => intro l h; exact h
  | succ k ih =>
    intro l h
    exact ih (passK pkey l (k + 1)) (passK_stab (k + 1) l h)

lemma mkRankings_map_player :
    ∀ (l : List Player) (i : Nat),
    (mkRankings l i).map (fun rk => rk.player) = l := by
  intro l
  induction l with
  | nil => intro i; rfl
  | cons p t ih => intro i; simp [mkRankings, ih]

lemma mkRankings_map_rank :
    ∀ (l : List Player) (i : Nat),
    (mkRankings l i).map (fun rk => rk.rank) =
      (List.range' i l.length).map (fun j : Nat => (j : Int) + 1) := by
  intro l
  induction l with
  | nil => intro i; rfl
  | cons p t ih =>
    intro i
    simp only [mkRankings, List.map_cons, List.length_cons, List.range'_succ]
    rw [ih (i + 1)]

/-- C8: `calculatePlayerRankings` returns the seats of the game as a
permutation sorted by final chip count descending, assigning ranks 1..N in
that order; the strict-inequality bubble sort is stable, so seats with
equal chips keep their original seat order (witnessed by the seat-indexed
run of the same sort, whose projection is the program's sort and in which
equal-chip entries have strictly increasing original indices). -/
theorem C8_rankings_by_chips_stable (r : GameResult) :
    ((calculatePlayerRankings r).map (fun rk => rk.player)).Perm r.allPlayers ∧
    (calculatePlayerRankings r).map (fun rk => rk.rank) =
      (List.range r.allPlayers.length).map (fun j : Nat => (j : Int) + 1) ∧
    List.Pairwise (fun a b => b.player.chips ≤ a.player.chips)
      (calculatePlayerRankings r) ∧
    (bubbleSortK pkey (withIdx r.allPlayers 0)).map Prod.fst =
      bubbleSortK playerKey r.allPlayers ∧
    List.Pairwise (fun a b => pkey a = pkey b → a.2 < b.2)
      (bubbleSortK pkey (withIdx r.allPlayers 0)) := by
  refine ⟨?_, ?_, ?_, ?_, ?_⟩
  · unfold calculatePlayerRankings
    rw [mkRankings_map_player]
    exact bubbleSortK_perm playerKey r.allPlayers
  · unfold calculatePlayerRankings
    rw [mkRankings_map_rank, List.range_eq_range',
      (bubbleSortK_perm playerKey r.allPlayers).length_eq]
  · unfold calculatePlayerRankings
    have h := bubbleSortK_pairwise playerKey r.allPlayers
    rw [← mkRankings_map_player (bubbleSortK playerKey r.allPlayers) 0] at h
    have h2 := List.pairwise_map.mp h
    exact h2.imp (fun hh => hh)
  · unfold bubbleSortK
    rw [withIdx_length, bubbleAuxK_map_fst, withIdx_map_fst]
  · unfold bubbleSortK
    apply bubbleAuxK_stab
    refine (withIdx_pairwise_idx r.allPlayers 0).imp ?_
    intro a b h _
    exact h

/-- Lifecycle phase of one game goroutine relative to the worker
semaphore in `runParallelGames`: not yet acquired, holding a slot
(running `g.Start()` and hence invoking the decision provider), or
released. -/
inductive WPhase where
  | pending
  | running
  | done
deriving DecidableEq

def runningCount (phases : List WPhase) : Nat :=
  phases.countP (fun w => w = WPhase.running)

/-- tournament/manager.go `maxWorkers := min(gm.config.Games, 10)`. -/
def maxWorkers (games : Nat) : Nat := min games 10

/-- The transitions the buffered-channel semaphore `workerSem` permits: a
pending goroutine may start running only while fewer than `cap` are
running (a send on the channel blocks at capacity), and a running
goroutine may finish and release its slot. -/
inductive PoolStep (cap : Nat) : List WPhase → List WPhase → Prop where
  | acquire (ps : List WPhase) (i : Nat) (hi : i < ps.length)
      (hp : ps.get ⟨i, hi⟩ = WPhase.pending)
      (hc : runningCount ps < cap) :
      PoolStep cap ps (ps.set i WPhase.running)
  | release (ps : List WPhase) (i : Nat) (hi : i < ps.length)
      (hr : ps.get ⟨i, hi⟩ = WPhase.running) :
      PoolStep cap ps (ps.set i WPhase.done)

/-- States of the pool reachable from `n` games all pending. -/
inductive PoolReach (cap : Nat) (n : Nat) : List WPhase → Prop where
  | start : PoolReach cap n (List.replicate n WPhase.pending)
  | step {s t : List WPhase} : PoolReach cap n s → PoolStep cap s t → PoolReach cap n t

lemma runningCount_set_le (ps : List WPhase) (i : Nat) (v : WPhase) :
    runningCount (ps.set i v) ≤ runningCount ps + 1 := by
  induction ps generalizing i with
  | nil => simp [runningCount]
  | cons h t ih =>
    cases i with
    | zero =>
      simp only [List.set, runningCount, List.countP_cons]
      have := ih 0
      cases v <;> cases h <;> simp <;> omega
    | succ j =>
      simp only [List.set, runningCount, List.countP_cons]
      have := ih j
      simp only [runningCount] at this
      omega

lemma runningCount_set_done (ps : List WPhase) (i : Nat) :
    runningCount (ps.set i WPhase.done) ≤ runningCount ps := by
  induction ps generalizing i with
  | nil => simp [runningCount]
  | cons h t ih =>
    cases i with
    | zero =>
      simp only [List.set, runningCount, List.countP_cons]
      cases h <;> simp
    | succ j =>
      simp only [List.set, runningCount, List.countP_cons]
      have := ih j
      simp only [runningCount] at this
      omega

lemma runningCount_replicate_pending (n : Nat) :
    runningCount (List.replicate n WPhase.pending) = 0 := by
  induction n with
  | zero => rfl
  | succ m ih =>
    rw [List.replicate_succ]
    simp only [runningCount, List.countP_cons]
    simp only [runningCount] at ih
    simp [ih]

lemma poolStep_bound {cap : Nat} {s t : List WPhase} (hstep : PoolStep cap s t)
    (hs : runningCount s ≤ cap) : runningCount t ≤ cap := by
  cases hstep with
  | acquire i hi hp hc =>
    have h1 := runningCount_set_le s i WPhase.running
    omega
  | release i hi hrr =>
    have h1 := runningCount_set_done s i
    omega

/-- C9: with the worker pool of `runParallelGames` capped at
`min(tableCount, 10)` slots, every reachable state of the semaphore
protocol has at most that many games running (hence invoking the decision
provider) simultaneously; in particular the cap for 50 tables is 10. -/
theorem C9_worker_pool_bounds_concurrency :
    (∀ (n : Nat) (s : List WPhase),
      PoolReach (maxWorkers n) n s → runningCount s ≤ maxWorkers n) ∧
    maxWorkers 50 = 10 := by
  constructor
  · intro n s hreach
    induction hreach with
    | start =>
      rw [runningCount_replicate_pending]
      exact Nat.zero_le _
    | step hr hstep ih => exact poolStep_bound hstep ih
  · rfl

/-- Closed instance of C9: after one game of fifty acquires a slot, the
running count (one) is within the cap of ten. -/
theorem C9_worker_pool_bounds_concurrency_witness :
    runningCount ((List.replicate 50 WPhase.pending).set 0 WPhase.running) ≤
      maxWorkers 50 :=
  C9_worker_pool_bounds_concurrency.1 50
    ((List.replicate 50 WPhase.pending).set 0 WPhase.running)
    (PoolReach.step PoolReach.start
      (PoolStep.acquire (List.replicate 50 WPhase.pending) 0 (by decide)
        (by decide) (by decide)))
